import Mathlib

/-!
Shallow embedding of the tmLanguage tokenizer (package `language` of the
sublime repository: `Pattern.FirstMatch`, `Pattern.Cache`,
`Pattern.CreateCaptureNodes`, `Pattern.CreateNode`, `Parser.Parse`,
`Parser.patch`) together with theorems checking the specification's claims
against it.

Modelling conventions:
* Go strings that serve as regex haystacks are byte lists (`List Nat`);
  the input `[]rune` of the parser is a `List Char`, encoded to bytes by
  `utf8Encode` (mirroring Go's `string(p.data)`).
* The external regex engine (an opaque dependency) is a function
  `RegexF : List Nat → Nat → Option MatchObject`; `textmate.Regex` values
  are `Option RegexF`, `none` standing for the empty sentinel regex
  (`Regex.Empty()` true).
* Pattern mutation (the per-run cache) is explicit state passing: a
  `Store` maps pattern identities (`PatId`) to their cache fields.
* Go's unbounded recursion (includes, region expansion) is fueled; fuel
  exhaustion returns a degenerate value and is unreachable for the
  concrete runs and is hypothesised away in general theorems.
-/

namespace Sublime

/-- Model of `textmate.MatchObject`: flat list of byte offsets
`[g0start, g0end, g1start, g1end, ...]`; absent groups are `-1`. -/
abbrev MatchObject := List Int

/-- The external regex engine's `Find(haystack, start)` contract. -/
abbrev RegexF := List Nat → Nat → Option MatchObject

/-- One entry of `Captures` after JSON decoding: `(group index, scope name)`. -/
structure Capture where
  key : Nat
  name : String
deriving DecidableEq

/-- The static part of `Pattern` (the per-run cache lives in `PatCache`).
`matchRe` / `beginRe` / `endRe` are `none` exactly when the corresponding
`textmate.Regex` is the empty sentinel. -/
inductive Pattern : Type where
  | mk (name : String) (includeDirective : String)
       (matchRe : Option RegexF) (captures : List Capture)
       (beginRe : Option RegexF) (beginCaptures : List Capture)
       (endRe : Option RegexF) (endCaptures : List Capture)
       (patterns : List Pattern) : Pattern

def Pattern.name : Pattern → String
  | .mk n _ _ _ _ _ _ _ _ => n

def Pattern.includeDirective : Pattern → String
  | .mk _ i _ _ _ _ _ _ _ => i

def Pattern.matchRe : Pattern → Option RegexF
  | .mk _ _ m _ _ _ _ _ _ => m

def Pattern.captures : Pattern → List Capture
  | .mk _ _ _ c _ _ _ _ _ => c

def Pattern.beginRe : Pattern → Option RegexF
  | .mk _ _ _ _ b _ _ _ _ => b

def Pattern.beginCaptures : Pattern → List Capture
  | .mk _ _ _ _ _ bc _ _ _ => bc

def Pattern.endRe : Pattern → Option RegexF
  | .mk _ _ _ _ _ _ e _ _ => e

def Pattern.endCaptures : Pattern → List Capture
  | .mk _ _ _ _ _ _ _ ec _ => ec

def Pattern.patterns : Pattern → List Pattern
  | .mk _ _ _ _ _ _ _ _ ps => ps

/-- Identity of a pattern inside a `Language`: either a descendant of the
root pattern or a descendant of a repository entry, addressed by the list
of child indices. -/
inductive PatBase : Type where
  | root : PatBase
  | repo (key : String) : PatBase
deriving DecidableEq

structure PatId where
  base : PatBase
  path : List Nat
deriving DecidableEq

/-- The mutable cache fields of a `Pattern` (its scratch memoization).
Go zero values: `cachedData` is the empty string, `cachedMatch` /
`cachedPat` are nil, `cachedPatterns` is a nil slice (distinct from an
empty non-nil slice, hence the `Option`). -/
structure PatCache where
  cachedData : List Nat := []
  cachedMatch : Option MatchObject := none
  cachedPat : Option PatId := none
  cachedPatterns : Option (List PatId) := none
  hits : Nat := 0
  misses : Nat := 0

/-- Per-pattern cache state of a whole grammar instance. -/
def Store := PatId → PatCache

def Store.init : Store := fun _ => {}

def Store.set (st : Store) (pid : PatId) (c : PatCache) : Store :=
  fun q => if q = pid then c else st q

/-- Model of `Language` (the fields the tokenizer reads). -/
structure Language where
  scopeName : String
  rootPattern : Pattern
  repository : List (String × Pattern)

def Pattern.descend : Pattern → List Nat → Option Pattern
  | p, [] => some p
  | p, i :: rest =>
    match p.patterns.get? i with
    | some c => c.descend rest
    | none => none

def Language.repoFind (L : Language) (key : String) : Option Pattern :=
  (L.repository.find? (fun e => e.1 = key)).map (·.2)

def Language.lookupPat (L : Language) (pid : PatId) : Option Pattern :=
  match pid.base with
  | .root => L.rootPattern.descend pid.path
  | .repo k =>
    match L.repoFind k with
    | some p => p.descend pid.path
    | none => none

/-- The child ids mirroring `p.cachedPatterns[i] = &p.Patterns[i]`. -/
def childIds (pid : PatId) (p : Pattern) : List PatId :=
  (List.range p.patterns.length).map (fun i => ⟨pid.base, pid.path ++ [i]⟩)

/-- Scope-tree node (`parser.Node`): name, half-open range `[a, b)` and
children; the `P DataSource` field carries no observable data. -/
inductive Node : Type where
  | mk (name : String) (a b : Int) (children : List Node) : Node

def Node.name : Node → String
  | .mk n _ _ _ => n

def Node.a : Node → Int
  | .mk _ a _ _ => a

def Node.b : Node → Int
  | .mk _ _ b _ => b

def Node.children : Node → List Node
  | .mk _ _ _ ch => ch

/-- Modelled from the spec: `parser.Node.Append` of the external parser
package appends the child to the node's child list ("building its node
and appending it as a child"); it does not touch ranges. -/
def Node.append (n : Node) (child : Node) : Node :=
  .mk n.name n.a n.b (n.children ++ [child])

def Node.setB (n : Node) (b : Int) : Node :=
  .mk n.name n.a b n.children

mutual

/-- Modelled from the spec: `parser.Node.UpdateRange` of the external
parser package — "the node's range is updated to span from its declared
start to its final end; range recomputation from children must not shrink
beyond the declared anchors": recursively update the children, then widen
the own range to include every child's range. -/
def Node.updateRange : Node → Node
  | .mk nm a b ch =>
    let ch' := updateRangeList ch
    let a' := ch'.foldl (fun acc c => min acc c.a) a
    let b' := ch'.foldl (fun acc c => max acc c.b) b
    .mk nm a' b' ch'

def updateRangeList : List Node → List Node
  | [] => []
  | n :: t => n.updateRange :: updateRangeList t

end

mutual

/-- Preorder flattening of a node (name, range, arity); two nodes with
different flattenings are different, which makes tree disequalities
decidable. -/
def Node.flat : Node → List (String × Int × Int × Nat)
  | .mk nm a b ch => (nm, a, b, ch.length) :: flatList ch

def flatList : List Node → List (String × Int × Int × Nat)
  | [] => []
  | n :: t => n.flat ++ flatList t

end

/-!
## `Pattern.FirstMatch`

The first-match selection loop over the live-candidates list
(`p.cachedPatterns`), generic in the child-query function `q` (the source
calls `p.cachedPatterns[i].Cache(data, pos)` there, which mutates state of
type `σ`).  It returns the winning `(producing pattern, match)` pair, the
pruned live list, and the final state.  A child answering `nil` is popped
from the list; a strictly earlier match replaces the current best
(`startIdx > im[0]`), and a match starting exactly at `pos` stops the
search, leaving the remaining candidates untouched.
-/

def FirstMatchGo {α β σ : Type} (q : α → σ → (Option β × Option MatchObject) × σ)
    (pos : Nat) :
    List α → Option (Option β × MatchObject) → σ →
    Option (Option β × MatchObject) × List α × σ
  | [], best, st => (best, [], st)
  | c :: rest, best, st =>
    let r := q c st
    let st1 := r.2
    match r.1.2 with
    | none =>
      -- "If it wasn't found now, it'll never be found, so the pattern can
      -- be popped from the cache"
      FirstMatchGo q pos rest best st1
    | some im =>
      let better := match best with
        | none => true
        | some (_, bm) => bm.getD 0 0 > im.getD 0 0
      if better then
        if im.getD 0 0 = (pos : Int) then
          -- "This match is right at the start, we're not going to find a
          -- better pattern than this, so stop the search"
          (some (r.1.1, im), c :: rest, st1)
        else
          let rec' := FirstMatchGo q pos rest (some (r.1.1, im)) st1
          (rec'.1, c :: rec'.2.1, rec'.2.2)
      else
        let rec' := FirstMatchGo q pos rest best st1
        (rec'.1, c :: rec'.2.1, rec'.2.2)

/-- The loop `FirstMatchGo` with a pure child-query function: each candidate's
answer is a fixed `(producing pattern, match)` pair, as is the case for
the queries issued during a single `FirstMatch` call. -/
def FirstMatchPure {α β : Type} (ans : α → Option β × Option MatchObject)
    (pos : Nat) (l : List α) : Option (Option β × MatchObject) × List α :=
  let r := FirstMatchGo (σ := Unit) (fun c _ => (ans c, ())) pos l none ()
  (r.1, r.2.1)

/-!
## `Pattern.Cache`

The memoizing matcher.  `Cache` first consults the cache fields; on a miss
it dispatches on the pattern's shape (match regex / begin regex / include
directive / plain group) and records the result.  Go's recursion through
include directives is unbounded, hence the fuel.
-/

/-- The `p.cachedPat.cachedMatch != nil` part of the cache-hit test.  A
nil `cachedPat` alongside a non-nil `cachedMatch` would make the source
dereference a nil pointer; that state is unreachable (both fields are
always written together), and the embedding lets the test fail there. -/
def cachedPatAlive (st : Store) : Option PatId → Bool
  | some q => (st q).cachedMatch.isSome
  | none => false

/-- The selection-and-write-back wrapper of `Pattern.FirstMatch`: run the
selection loop over the pattern's live-candidates list (a nil list has
length 0, so the loop body never runs and nothing is written back) and
store the pruned list (the source mutates `p.cachedPatterns` in place
while iterating).  Generic in the child-query function, which the callers
instantiate with `Cache`. -/
def FirstMatchOn (q : PatId → Store → (Option PatId × Option MatchObject) × Store)
    (pid : PatId) (pos : Nat) (st : Store) :
    Option PatId × Option MatchObject × Store :=
  match (st pid).cachedPatterns with
  | none => (none, none, st)
  | some live =>
    let r := FirstMatchGo q pos live none st
    let c := r.2.2 pid
    let st' := (r.2.2).set pid { c with cachedPatterns := some r.2.1 }
    match r.1 with
    | some (ip, im) => (ip, some im, st')
    | none => (none, none, st')

/-- Model of `Pattern.Cache`.  The `miss` continuation is the code below the
cache-consultation block, shared by the data-equal fallthrough and the
data-changed reset. -/
def Cache (L : Language) : Nat → PatId → List Nat → Nat → Store →
    Option PatId × Option MatchObject × Store
  | 0, _, _, _, st => (none, none, st)
  | fuel + 1, pid, data, pos, st =>
    match L.lookupPat pid with
    | none => (none, none, st)
    | some p =>
      let miss := fun (st0 : Store) =>
        -- rebuild the live-candidates list when it is nil
        let c0 := st0 pid
        let st1 := if c0.cachedPatterns = none then
                     st0.set pid { c0 with cachedPatterns := some (childIds pid p) }
                   else st0
        let c1 := st1 pid
        let st2 := st1.set pid { c1 with misses := c1.misses + 1 }
        -- the `p.cachedData = data; p.cachedMatch = ret; p.cachedPat = pat`
        -- epilogue shared by every branch below
        let finish := fun (pat : Option PatId) (ret : Option MatchObject) (st' : Store) =>
          let c := st' pid
          (pat, ret,
            st'.set pid
              { c with cachedData := data, cachedMatch := ret, cachedPat := pat })
        match p.matchRe with
        | some re => finish (some pid) (re data pos) st2
        | none =>
        match p.beginRe with
        | some re => finish (some pid) (re data pos) st2
        | none =>
        if p.includeDirective ≠ "" then
          if p.includeDirective.startsWith "#" then
            let key := p.includeDirective.drop 1
            match L.repoFind key with
            | some _ =>
              let r := Cache L fuel ⟨.repo key, []⟩ data pos st2
              finish r.1 r.2.1 r.2.2
            | none =>
              -- log.Fine("Not found in repository: ..."): pat and ret stay nil
              finish none none st2
          else if p.includeDirective.startsWith "$" then
            -- TODO in the source: $ include directives are unimplemented (warn only)
            finish none none st2
          else
            -- Include of another grammar by scope name.  Grammar loading is an
            -- external effect (file system + registry); modelled as a registry
            -- with no registered grammars: GetLanguage fails, the first failure
            -- is logged and the target enters the failed set (log-only), and no
            -- match is produced.  (On success the source would return the other
            -- grammar's root match directly, skipping the epilogue.)
            finish none none st2
        else
          let r := FirstMatchOn
            (fun cid s =>
              let rc := Cache L fuel cid data pos s
              ((rc.1, rc.2.1), rc.2.2))
            pid pos st2
          finish r.1 r.2.1 r.2.2
      let c := st pid
      if c.cachedData = data then
        match c.cachedMatch with
        | none => (none, none, st)
        | some m =>
          if m.getD 0 0 ≥ (pos : Int) ∧ cachedPatAlive st c.cachedPat then
            (c.cachedPat, some m, st.set pid { c with hits := c.hits + 1 })
          else
            miss st
      else
        -- haystack changed: drop the live-candidates list
        miss (st.set pid { c with cachedPatterns := none })

/-- Model of `Pattern.FirstMatch` as called on a pattern: the wrapper instantiated
with `Cache` as the child-query function. -/
def FirstMatch (L : Language) (fuel : Nat) (pid : PatId) (data : List Nat)
    (pos : Nat) (st : Store) : Option PatId × Option MatchObject × Store :=
  FirstMatchOn
    (fun cid s =>
      let rc := Cache L fuel cid data pos s
      ((rc.1, rc.2.1), rc.2.2))
    pid pos st

/-!
## `Pattern.CreateCaptureNodes`

One node per capture entry that names an in-range group with a present
submatch.  The parent of each group's node is found through the
`parentIndex` chain: `parentIndex[i]` is computed by scanning `j` from
`i-1` down to `0` and stopping at the first `j` whose span covers group
`i`'s span (groups 0 and 1 skip the scan and point at the caller's
parent); resolution then walks `i = parentIndex[i]` until it reaches a
group for which a node (or the caller's parent) exists.  The source
mutates the node graph in place; the embedding first computes the parent
assignment of every created node and then materializes the forest.
-/

/-- Modelled from the spec: `text.Region.Covers` of the external text
package — span containment with "equal spans count as coverage":
`r` covers `r2` when `r` contains `r2`'s begin and `r2`'s end does not
pass `r`'s end. -/
def coversB (r r2 : Int × Int) : Bool :=
  r.1 ≤ r2.1 ∧ r2.1 ≤ r.2 ∧ r2.2 ≤ r.2

/-- The spans `ranges[i] = text.Region{A: mo[i*2+0], B: mo[i*2+1]}`. -/
def CaptureRanges (mo : MatchObject) : List (Int × Int) :=
  (List.range (mo.length / 2)).map (fun i => (mo.getD (2 * i) 0, mo.getD (2 * i + 1) 0))

/-- The `for j := i - 1; j >= 0; j--` scan: called with `j+1`, it tests
index `j` first and walks down; with no covering index it yields the zero
value `0`. -/
def CapParentScan (ranges : List (Int × Int)) (r : Int × Int) : Nat → Nat
  | 0 => 0
  | j + 1 => if coversB (ranges.getD j (0, 0)) r then j else CapParentScan ranges r j

def CapParentIndex (ranges : List (Int × Int)) (i : Nat) : Nat :=
  if i < 2 then 0 else CapParentScan ranges (ranges.getD i (0, 0)) i

/-- Where a created capture node gets appended: to the caller's parent
node or to the node created for group `k`. -/
inductive ParentRef : Type where
  | caller : ParentRef
  | group (k : Nat) : ParentRef
deriving DecidableEq

/-- The `for p == nil { i = parentIndex[i]; p = parents[i] }` walk,
fueled: the chain strictly descends (`parentIndex[k] < k` for `k ≥ 1`),
so `k` steps always suffice (`CapWalk` below).  Fuel exhaustion yields
the caller's parent; it is unreachable from `CreateCaptureNodes`
(in the source a nil entry at index 0 would loop forever). -/
def CapWalkF (ranges : List (Int × Int)) (parents : Nat → Option ParentRef) :
    Nat → Nat → ParentRef
  | 0, _ => .caller
  | fuel + 1, k =>
    let j := CapParentIndex ranges k
    match parents j with
    | some r => r
    | none => CapWalkF ranges parents fuel j

def CapWalk (ranges : List (Int × Int)) (parents : Nat → Option ParentRef)
    (k : Nat) : ParentRef :=
  CapWalkF ranges parents k k

/-- Processing the capture list in order: skip out-of-range and absent
groups, resolve each created node's parent against the current `parents`
table, then record the node in the table.  Returns the list of created
nodes `(group, scope name, span, resolved parent)` in creation order. -/
def CapAssignLoop (ranges : List (Int × Int)) :
    List Capture → (Nat → Option ParentRef) →
    List (Nat × String × (Int × Int) × ParentRef) →
    List (Nat × String × (Int × Int) × ParentRef)
  | [], _, acc => acc
  | v :: rest, parents, acc =>
    let i := v.key
    if i ≥ ranges.length ∨ (ranges.getD i (0, 0)).1 = -1 then
      CapAssignLoop ranges rest parents acc
    else
      let pref := if i = 0 then ParentRef.caller else CapWalk ranges parents i
      CapAssignLoop ranges rest
        (fun x => if x = i then some (.group i) else parents x)
        (acc ++ [(i, v.name, ranges.getD i (0, 0), pref)])

/-- Materialize the assignment list into nodes.  Later nodes are appended
into earlier nodes (the source appends through pointers); processing the
list from the right collects, for each group, the children created after
it, in creation order.  Returns the children destined for the caller's
parent node. -/
def CapMaterialize :
    List (Nat × String × (Int × Int) × ParentRef) → (Nat → List Node) →
    List Node × (Nat → List Node)
  | [], pending => ([], pending)
  | (i, nm, rng, pref) :: rest, pending =>
    let r := CapMaterialize rest pending
    let node := Node.mk nm rng.1 rng.2 (r.2 i)
    match pref with
    | .caller => (node :: r.1, r.2)
    | .group g => (r.1, fun x => if x = g then node :: r.2 x else r.2 x)

/-- Model of `Pattern.CreateCaptureNodes` (its `data`, `pos` and `DataSource`
parameters are unused in the source body).  Appends the capture nodes to
`parent`'s children.  Group indices are assumed distinct, as produced by
the JSON capture decoder. -/
def CreateCaptureNodes (mo : MatchObject) (parent : Node) (capt : List Capture) :
    Node :=
  let ranges := CaptureRanges mo
  let parents0 : Nat → Option ParentRef := fun i =>
    if i < 2 ∧ i < ranges.length then some .caller else none
  let assigns := CapAssignLoop ranges capt parents0 []
  let r := CapMaterialize assigns (fun _ => [])
  .mk parent.name parent.a parent.b (parent.children ++ r.1)

/-!
## `Pattern.CreateNode`

Node construction.  For a range pattern the region-expansion loop scans
forward from the begin match's end, interleaving sub-pattern nodes with
the search for the end match; `CreateNodeLoop` is that
`for i, end = ret.Range.B, len(data); i < len(data);` loop, fueled
because the source's loop need not terminate.  The loop returns the node
with `ret.Range.B = end` already applied; `UpdateRange` is applied by the
caller (the source defers it).
-/

/-- Model of `strings.IndexRune(data[i:], '\n')` (byte offset relative to `i`). -/
def IndexNl (data : List Nat) (i : Nat) : Option Nat :=
  (data.drop i).findIdx? (fun b => b = 10)

/-- The region-expansion loop of `Pattern.CreateNode`
(`for i, end = ret.Range.B, len(data); i < len(data);`), fueled, and
generic in the collaborators the loop body invokes: `endCaps` appends the
end-capture nodes (`CreateCaptureNodes` with `EndCaptures` falling back
to `Captures`), `liveLen` reads `len(p.cachedPatterns)`, `firstM` is
`p.FirstMatch(data, i)` and `build` is the recursive
`pattern2.CreateNode(data, i, d, match2)`.  The loop returns the node
with `ret.Range.B = end` applied; the caller applies the deferred
`UpdateRange`. -/
def CreateNodeLoopG (endRe : RegexF) (data : List Nat)
    (endCaps : MatchObject → Node → Node)
    (liveLen : Store → Nat)
    (firstM : Nat → Store → Option PatId × Option MatchObject × Store)
    (build : PatId → Nat → MatchObject → Store → Node × Store) :
    Nat → Nat → Int → Bool → Node → Store → Node × Store
  | 0, _, endv, _, node, st => (node.setB endv, st)
  | fuel + 1, i, endv, found, node, st =>
    if i < data.length then
      match endRe data i with
      | none =>
        if !found then
          -- oops.. no end found at all, set it to the next line
          match IndexNl data i with
          | some e2 => (node.setB ((i : Int) + (e2 : Int)), st)
          | none => (node.setB (data.length : Int), st)
        else
          (node.setB (i : Int), st)
      | some endmatch =>
        let endv1 := endmatch.getD 1 0
        if liveLen st > 0 then
          -- Might be more recursive patterns to apply BEFORE the end is reached
          let fm := firstM i st
          match fm.2.1 with
          | some match2 =>
            -- The `endmatch == nil` disjunct of the source condition is dead
            -- here: a nil endmatch broke out of the loop above.
            if match2.getD 0 0 < endmatch.getD 0 0 ∨
               (match2.getD 0 0 = endmatch.getD 0 0 ∧ node.a = node.b) then
              match fm.1 with
              | some pat2 =>
                let r := build pat2 i match2 fm.2.2
                CreateNodeLoopG endRe data endCaps liveLen firstM build fuel
                  r.1.b.toNat endv1 true (node.append r.1) r.2
              | none =>
                -- nil producing pattern with a non-nil match: the source would
                -- dereference nil; unreachable (FirstMatch pairs them)
                ((endCaps endmatch node).setB endv1, fm.2.2)
            else
              ((endCaps endmatch node).setB endv1, fm.2.2)
          | none =>
            ((endCaps endmatch node).setB endv1, fm.2.2)
        else
          ((endCaps endmatch node).setB endv1, st)
    else
      (node.setB endv, st)

def CreateNode (L : Language) : Nat → PatId → List Nat → Nat → MatchObject →
    Store → Node × Store
  | 0, _, _, _, mo, st => (.mk "" (mo.getD 0 0) (mo.getD 1 0) [], st)
  | fuel + 1, pid, data, _pos, mo, st =>
    match L.lookupPat pid with
    | none => (.mk "" (mo.getD 0 0) (mo.getD 1 0) [], st)
    | some p =>
      let ret0 : Node := .mk p.name (mo.getD 0 0) (mo.getD 1 0) []
      let ret1 := if p.matchRe.isSome then CreateCaptureNodes mo ret0 p.captures else ret0
      match p.beginRe with
      | none => (ret1.updateRange, st)
      | some _ =>
        let ret2 := if p.beginCaptures.length > 0 then
                      CreateCaptureNodes mo ret1 p.beginCaptures
                    else
                      CreateCaptureNodes mo ret1 p.captures
        match p.endRe with
        | none => (ret2.updateRange, st)
        | some endRe =>
          let endCaps := fun (em : MatchObject) (n : Node) =>
            if p.endCaptures.length > 0 then CreateCaptureNodes em n p.endCaptures
            else CreateCaptureNodes em n p.captures
          let r := CreateNodeLoopG endRe data endCaps
            (fun s => ((s pid).cachedPatterns.getD []).length)
            (fun i s => FirstMatch L fuel pid data i s)
            (fun q i m s => CreateNode L fuel q data i m s)
            fuel ret2.b.toNat (data.length : Int) false ret2 st
          (r.1.updateRange, r.2)

/-!
## `Parser.Parse`

The tokenizer driver: walk the input, ask the root pattern for a match,
take the newline fast-path or build a node, and stop when the input or
the iteration budget (`maxiter`) is exhausted.  The loop is generic in
the matcher and node builder (state type `σ`); `Parse` instantiates them
with `Cache` / `CreateNode` over the `Store`.
-/

def maxiter : Nat := 10000

/-- UTF-8 byte length of a rune (as Go encodes it). -/
def utf8Len (c : Char) : Nat :=
  if c.toNat < 0x80 then 1
  else if c.toNat < 0x800 then 2
  else if c.toNat < 0x10000 then 3
  else 4

/-- UTF-8 encoding of a rune. -/
def utf8Bytes (c : Char) : List Nat :=
  let v := c.toNat
  if v < 0x80 then [v]
  else if v < 0x800 then [0xC0 + v / 0x40, 0x80 + v % 0x40]
  else if v < 0x10000 then
    [0xE0 + v / 0x1000, 0x80 + (v / 0x40) % 0x40, 0x80 + v % 0x40]
  else
    [0xF0 + v / 0x40000, 0x80 + (v / 0x1000) % 0x40,
     0x80 + (v / 0x40) % 0x40, 0x80 + v % 0x40]

/-- Model of `sdata := string(p.data)`: the rune slice as UTF-8 bytes. -/
def utf8Encode (data : List Char) : List Nat :=
  (data.map utf8Bytes).flatten

/-- Model of `nl := strings.IndexAny(sdata[i:], "\n\r"); if nl != -1 { nl += i }`. -/
def IndexAnyNl (sdata : List Nat) (i : Nat) : Int :=
  match (sdata.drop i).findIdx? (fun b => b = 10 ∨ b = 13) with
  | some k => ((i + k : Nat) : Int)
  | none => -1

/-- The scan `for i < len(sdata) && (sdata[i] == '\n' || sdata[i] == '\r') { i++ }`,
expressed on the suffix starting at `i`. -/
def SkipNlFrom : List Nat → Nat → Nat
  | [], i => i
  | b :: t, i => if b = 10 ∨ b = 13 then SkipNlFrom t (i + 1) else i

def SkipNl (sdata : List Nat) (i : Nat) : Nat :=
  SkipNlFrom (sdata.drop i) i

/-- Outcome of one iteration of the driver's main loop: `brk` leaves the
loop (the `break` on a nil match, skipping the `iter--` post statement),
`cont` completes the iteration with the new position and the node
appended to the root (if any). -/
inductive StepRes (σ : Type) : Type where
  | brk (i : Nat) (st : σ) : StepRes σ
  | cont (i : Nat) (node : Option Node) (st : σ) : StepRes σ

/-- One iteration of the driver's main loop body. -/
def ParseStep {σ : Type}
    (matcher : Nat → σ → (Option PatId × Option MatchObject) × σ)
    (builder : PatId → Nat → MatchObject → σ → Node × σ)
    (sdata : List Nat) (i : Nat) (st : σ) : StepRes σ :=
  let m := matcher i st
  let nl := IndexAnyNl sdata i
  match m.1.2 with
  | none => .brk i m.2
  | some mo =>
    if nl > 0 ∧ nl ≤ mo.getD 0 0 then
      -- newline fast-path: advance to the newline, then skip the run of
      -- newline runes; no node is built
      .cont (SkipNl sdata nl.toNat) none m.2
    else
      match m.1.1 with
      | some pat =>
        let r := builder pat i mo m.2
        .cont r.1.b.toNat (some r.1) r.2
      | none =>
        -- nil producing pattern with non-nil match: the source would
        -- dereference nil; unreachable (Cache pairs them)
        .brk i m.2

/-- The driver's main loop, structurally recursive on the iteration
budget `iter` (Go's `iter--` post statement).  Returns the accumulated
children of the root node, the final position, the remaining budget and
the final state. -/
def ParseLoop {σ : Type}
    (matcher : Nat → σ → (Option PatId × Option MatchObject) × σ)
    (builder : PatId → Nat → MatchObject → σ → Node × σ)
    (sdata : List Nat) :
    Nat → Nat → List Node → σ → List Node × Nat × Nat × σ
  | 0, i, acc, st => (acc, i, 0, st)
  | iter + 1, i, acc, st =>
    if i < sdata.length then
      match ParseStep matcher builder sdata i st with
      | .brk i' st' => (acc, i', iter + 1, st')
      | .cont i' n st' => ParseLoop matcher builder sdata iter i' (acc ++ n.toList) st'
    else
      (acc, i, iter + 1, st)

/-- The byte-offset → rune-offset sweep
(`j := 0; for i := range sdata { lut[i] = j; j++ }`) with running rune
counter `j`: every rune-start byte offset holds its rune index, the bytes
inside a multi-byte rune keep the zero value. -/
def BuildLutCore (j : Nat) : List Char → List Nat
  | [] => []
  | c :: t => j :: (List.replicate (utf8Len c - 1) 0 ++ BuildLutCore (j + 1) t)

/-- The byte-offset → rune-offset lookup table: the sweep plus the
terminal entry `lut[len(sdata)] = len(p.data)`. -/
def BuildLut (data : List Char) : List Nat :=
  BuildLutCore 0 data ++ [data.length]

mutual

/-- Model of `Parser.patch`: rewrite every node's range through the lookup table,
by recursive descent.  (The source indexes the table directly and would
panic out of bounds; ranges stay within the table for in-contract regex
results.) -/
def patch (lut : List Nat) : Node → Node
  | .mk nm a b ch =>
    .mk nm (lut.getD a.toNat 0 : Nat) (lut.getD b.toNat 0 : Nat) (patchList lut ch)

def patchList (lut : List Nat) : List Node → List Node
  | [] => []
  | n :: t => patch lut n :: patchList lut t

end

/-- The driver's matcher: `p.l.RootPattern.Cache(sdata, i)`. -/
def ParseMatcher (L : Language) (fuel : Nat) (sdata : List Nat) :
    Nat → Store → (Option PatId × Option MatchObject) × Store :=
  fun i s =>
    let r := Cache L fuel ⟨.root, []⟩ sdata i s
    ((r.1, r.2.1), r.2.2)

/-- The driver's node builder: `pat.CreateNode(sdata, i, p, ret)`. -/
def ParseBuilder (L : Language) (fuel : Nat) (sdata : List Nat) :
    PatId → Nat → MatchObject → Store → Node × Store :=
  fun pat i mo s => CreateNode L fuel pat sdata i mo s

/-- Model of `Parser.Parse`.  The result pair models Go's `(*parser.Node, error)`:
a normal return is `(some tree, none)`; the iteration-limit panic is
recovered by the deferred handler, which logs it, after which the
function returns the zero values `(nil, nil)` — modelled `(none, none)`. -/
def Parse (L : Language) (fuel : Nat) (data : List Char) (st : Store) :
    (Option Node × Option String) × Store :=
  let sdata := utf8Encode data
  let r := ParseLoop (ParseMatcher L fuel sdata) (ParseBuilder L fuel sdata)
    sdata maxiter 0 [] st
  let rn := (Node.mk L.scopeName 0 0 r.1).updateRange
  let rn2 := if sdata.length ≠ 0 then patch (BuildLut data) rn else rn
  if r.2.2.1 = 0 then
    -- panic("reached maximum number of iterations"), recovered: zero values
    ((none, none), r.2.2.2)
  else
    ((some rn2, none), r.2.2.2)

/-!
## Theorems

### First-match selection (`Pattern.FirstMatch`)
-/

/-- The accumulator update that `FirstMatchGo` applies for each candidate
(in the absence of the short-circuit): a null answer leaves the best
untouched, a strictly earlier match replaces it. -/
def foldBest {α β : Type} (ans : α → Option β × Option MatchObject) :
    List α → Option (Option β × MatchObject) → Option (Option β × MatchObject)
  | [], b => b
  | c :: t, b =>
    foldBest ans t
      (match (ans c).2 with
       | none => b
       | some im =>
         match b with
         | none => some ((ans c).1, im)
         | some (bp, bm) =>
           if bm.getD 0 0 > im.getD 0 0 then some ((ans c).1, im) else some (bp, bm))

theorem FirstMatchGo_pure_of_no_pos {α β : Type}
    (ans : α → Option β × Option MatchObject) (pos : Nat) :
    ∀ (l : List α) (best : Option (Option β × MatchObject)),
    (∀ c ∈ l, ∀ m, (ans c).2 = some m → m.getD 0 0 ≠ (pos : Int)) →
    FirstMatchGo (σ := Unit) (fun c _ => (ans c, ())) pos l best ()
      = (foldBest ans l best, l.filter (fun c => ((ans c).2).isSome), ()) := by
  intro l
  induction l with
  | nil => intro best _; rfl
  | cons c t ih =>
    intro best h
    have hc := fun m => h c (List.mem_cons_self c t) m
    have ht : ∀ c' ∈ t, ∀ m, (ans c').2 = some m → m.getD 0 0 ≠ (pos : Int) :=
      fun c' hc' m hm => h c' (List.mem_cons_of_mem _ hc') m hm
    simp only [FirstMatchGo, foldBest, List.filter_cons]
    cases hans : (ans c).2 with
    | none => simp [hans, ih best ht, -List.getD_eq_getElem?_getD]
    | some im =>
      have hne : ¬ (im.getD 0 0 = (pos : Int)) := hc im hans
      cases best with
      | none => simp [hans, hne, ih _ ht, -List.getD_eq_getElem?_getD]
      | some b =>
        obtain ⟨bp, bm⟩ := b
        by_cases hbet : bm.getD 0 0 > im.getD 0 0
        · simp [hans, hne, hbet, ih _ ht, -List.getD_eq_getElem?_getD]
        · simp [hans, hbet, ih _ ht, -List.getD_eq_getElem?_getD]

theorem FirstMatchGo_pure_break {α β : Type}
    (ans : α → Option β × Option MatchObject) (pos : Nat) :
    ∀ (l1 : List α) (c : α) (l2 : List α) (m : MatchObject)
      (best : Option (Option β × MatchObject)),
    (ans c).2 = some m → m.getD 0 0 = (pos : Int) →
    (∀ c' ∈ l1, ∀ m', (ans c').2 = some m' →
      (pos : Int) ≤ m'.getD 0 0 ∧ m'.getD 0 0 ≠ (pos : Int)) →
    (∀ p0 m0, best = some (p0, m0) → (pos : Int) < m0.getD 0 0) →
    FirstMatchGo (σ := Unit) (fun c _ => (ans c, ())) pos (l1 ++ c :: l2) best ()
      = (some ((ans c).1, m),
         l1.filter (fun c' => ((ans c').2).isSome) ++ c :: l2, ()) := by
  intro l1
  induction l1 with
  | nil =>
    intro c l2 m best hm hp _ hbest
    simp only [List.nil_append, FirstMatchGo, List.filter_nil]
    cases best with
    | none => simp [hm, hp, -List.getD_eq_getElem?_getD]
    | some b =>
      obtain ⟨bp, bm⟩ := b
      have hgt : (pos : Int) < bm.getD 0 0 := hbest bp bm rfl
      simp [hm, hp, hgt, -List.getD_eq_getElem?_getD]
  | cons c' t ih =>
    intro c l2 m best hm hp h1 hbest
    have hc' := fun m' => h1 c' (List.mem_cons_self c' t) m'
    have ht : ∀ x ∈ t, ∀ m', (ans x).2 = some m' →
        (pos : Int) ≤ m'.getD 0 0 ∧ m'.getD 0 0 ≠ (pos : Int) :=
      fun x hx m' hm' => h1 x (List.mem_cons_of_mem _ hx) m' hm'
    simp only [List.cons_append, FirstMatchGo, List.filter_cons]
    cases hans : (ans c').2 with
    | none => simp [hans, ih c l2 m best hm hp ht hbest, -List.getD_eq_getElem?_getD]
    | some im =>
      have him := hc' im hans
      have hne : ¬ (im.getD 0 0 = (pos : Int)) := him.2
      cases best with
      | none =>
        have hb' : ∀ p0 m0, (some ((ans c').1, im) : Option (Option β × MatchObject))
            = some (p0, m0) → (pos : Int) < m0.getD 0 0 := by
          intro p0 m0 he
          injection he with he
          have h2 := congrArg Prod.snd he
          simp at h2
          subst h2
          omega
        simp [hans, hne, ih c l2 m _ hm hp ht hb', -List.getD_eq_getElem?_getD]
      | some b =>
        obtain ⟨bp, bm⟩ := b
        have hbm : (pos : Int) < bm.getD 0 0 := hbest bp bm rfl
        by_cases hbet : bm.getD 0 0 > im.getD 0 0
        · have hb' : ∀ p0 m0, (some ((ans c').1, im) : Option (Option β × MatchObject))
              = some (p0, m0) → (pos : Int) < m0.getD 0 0 := by
            intro p0 m0 he
            injection he with he
            have h2 := congrArg Prod.snd he
            simp at h2
            subst h2
            omega
          simp [hans, hne, hbet, ih c l2 m _ hm hp ht hb', -List.getD_eq_getElem?_getD]
        · have hb' : ∀ p0 m0, (some (bp, bm) : Option (Option β × MatchObject))
              = some (p0, m0) → (pos : Int) < m0.getD 0 0 := by
            intro p0 m0 he
            injection he with he
            have h2 := congrArg Prod.snd he
            simp at h2
            subst h2
            exact hbm
          simp [hans, hbet, ih c l2 m _ hm hp ht hb', -List.getD_eq_getElem?_getD]

theorem foldBest_min {α β : Type} (ans : α → Option β × Option MatchObject) :
    ∀ (l : List α) (b : Option (Option β × MatchObject)) (bp : Option β)
      (bm : MatchObject), foldBest ans l b = some (bp, bm) →
    (∀ c ∈ l, ∀ m, (ans c).2 = some m → bm.getD 0 0 ≤ m.getD 0 0) ∧
    (∀ p0 m0, b = some (p0, m0) → bm.getD 0 0 ≤ m0.getD 0 0) := by
  intro l
  induction l with
  | nil =>
    intro b bp bm h
    refine ⟨by simp, ?_⟩
    intro p0 m0 hb
    rw [foldBest] at h
    rw [hb] at h
    injection h with h
    have := congrArg Prod.snd h
    simp at this
    subst this
    exact le_refl _
  | cons c t ih =>
    intro b bp bm h
    rw [foldBest] at h
    cases hans : (ans c).2 with
    | none =>
      rw [hans] at h
      obtain ⟨h1, h2⟩ := ih b bp bm h
      refine ⟨?_, h2⟩
      intro c' hc' m hm
      rcases List.mem_cons.1 hc' with rfl | hc'
      · rw [hans] at hm; exact absurd hm (by simp)
      · exact h1 c' hc' m hm
    | some im =>
      rw [hans] at h
      cases b with
      | none =>
        obtain ⟨h1, h2⟩ := ih _ bp bm h
        have him := h2 (ans c).1 im rfl
        refine ⟨?_, by simp⟩
        intro c' hc' m hm
        rcases List.mem_cons.1 hc' with rfl | hc'
        · rw [hans] at hm; injection hm with hm; subst hm; exact him
        · exact h1 c' hc' m hm
      | some b0 =>
        obtain ⟨p0, m0⟩ := b0
        by_cases hbet : m0.getD 0 0 > im.getD 0 0
        · simp only [hbet, if_pos] at h
          obtain ⟨h1, h2⟩ := ih _ bp bm h
          have him := h2 (ans c).1 im rfl
          refine ⟨?_, ?_⟩
          · intro c' hc' m hm
            rcases List.mem_cons.1 hc' with rfl | hc'
            · rw [hans] at hm; injection hm with hm; subst hm; exact him
            · exact h1 c' hc' m hm
          · intro p1 m1 hb
            injection hb with hb
            have := congrArg Prod.snd hb
            simp at this
            subst this
            omega
        · simp only [hbet, if_neg, not_false_iff] at h
          obtain ⟨h1, h2⟩ := ih _ bp bm h
          have hm0 := h2 p0 m0 rfl
          refine ⟨?_, ?_⟩
          · intro c' hc' m hm
            rcases List.mem_cons.1 hc' with rfl | hc'
            · rw [hans] at hm; injection hm with hm; subst hm; omega
            · exact h1 c' hc' m hm
          · intro p1 m1 hb
            injection hb with hb
            have := congrArg Prod.snd hb
            simp at this
            subst this
            exact hm0

theorem foldBest_none {α β : Type} (ans : α → Option β × Option MatchObject) :
    ∀ (l : List α) (b : Option (Option β × MatchObject)),
    foldBest ans l b = none → b = none ∧ ∀ c ∈ l, (ans c).2 = none := by
  intro l
  induction l with
  | nil => intro b h; exact ⟨h, by simp⟩
  | cons c t ih =>
    intro b h
    rw [foldBest] at h
    cases hans : (ans c).2 with
    | none =>
      rw [hans] at h
      obtain ⟨h1, h2⟩ := ih b h
      refine ⟨h1, ?_⟩
      intro c' hc'
      rcases List.mem_cons.1 hc' with rfl | hc'
      · exact hans
      · exact h2 c' hc'
    | some im =>
      rw [hans] at h
      exfalso
      cases b with
      | none => exact absurd (ih _ h).1 (by simp)
      | some b0 =>
        obtain ⟨p0, m0⟩ := b0
        by_cases hbet : m0.getD 0 0 > im.getD 0 0
        · simp only [hbet, if_pos] at h
          exact absurd (ih _ h).1 (by simp)
        · simp only [hbet, if_neg, not_false_iff] at h
          exact absurd (ih _ h).1 (by simp)

theorem foldBest_split {α β : Type} (ans : α → Option β × Option MatchObject) :
    ∀ (l : List α) (b : Option (Option β × MatchObject)) (bp : Option β)
      (bm : MatchObject), foldBest ans l b = some (bp, bm) →
    b = some (bp, bm) ∨
    ∃ l1 c l2, l = l1 ++ c :: l2 ∧ (ans c).1 = bp ∧ (ans c).2 = some bm ∧
      (∀ p0 m0, b = some (p0, m0) → bm.getD 0 0 < m0.getD 0 0) ∧
      (∀ c' ∈ l1, ∀ m', (ans c').2 = some m' → bm.getD 0 0 < m'.getD 0 0) := by
  intro l
  induction l with
  | nil => intro b bp bm h; exact Or.inl h
  | cons c t ih =>
    intro b bp bm h
    rw [foldBest] at h
    cases hans : (ans c).2 with
    | none =>
      rw [hans] at h
      rcases ih b bp bm h with hl | ⟨t1, c', t2, hsplit, hc1, hc2, hbconj, hl1⟩
      · exact Or.inl hl
      · refine Or.inr ⟨c :: t1, c', t2, by rw [hsplit, List.cons_append], hc1, hc2, hbconj, ?_⟩
        intro x hx m' hm'
        rcases List.mem_cons.1 hx with rfl | hx
        · rw [hans] at hm'; exact absurd hm' (by simp)
        · exact hl1 x hx m' hm'
    | some im =>
      rw [hans] at h
      cases b with
      | none =>
        rcases ih _ bp bm h with hl | ⟨t1, c', t2, hsplit, hc1, hc2, hbconj, hl1⟩
        · injection hl with hl
          have h1 := congrArg Prod.fst hl
          have h2 := congrArg Prod.snd hl
          simp at h1 h2
          exact Or.inr ⟨[], c, t, by simp, h1, by rw [hans, h2], by simp, by simp⟩
        · have him := hbconj (ans c).1 im rfl
          refine Or.inr ⟨c :: t1, c', t2, by rw [hsplit, List.cons_append], hc1, hc2,
            by simp, ?_⟩
          intro x hx m' hm'
          rcases List.mem_cons.1 hx with rfl | hx
          · rw [hans] at hm'; injection hm' with hm'; subst hm'; exact him
          · exact hl1 x hx m' hm'
      | some b0 =>
        obtain ⟨p0, m0⟩ := b0
        by_cases hbet : m0.getD 0 0 > im.getD 0 0
        · simp only [hbet, if_pos] at h
          rcases ih _ bp bm h with hl | ⟨t1, c', t2, hsplit, hc1, hc2, hbconj, hl1⟩
          · injection hl with hl
            have h1 := congrArg Prod.fst hl
            have h2 := congrArg Prod.snd hl
            simp at h1 h2
            subst h2
            refine Or.inr ⟨[], c, t, by simp, h1, hans, ?_, by simp⟩
            intro p1 m1 hb
            injection hb with hb
            have := congrArg Prod.snd hb
            simp at this
            subst this
            omega
          · have him := hbconj (ans c).1 im rfl
            refine Or.inr ⟨c :: t1, c', t2, by rw [hsplit, List.cons_append], hc1, hc2, ?_, ?_⟩
            · intro p1 m1 hb
              injection hb with hb
              have := congrArg Prod.snd hb
              simp at this
              subst this
              omega
            · intro x hx m' hm'
              rcases List.mem_cons.1 hx with rfl | hx
              · rw [hans] at hm'; injection hm' with hm'; subst hm'; exact him
              · exact hl1 x hx m' hm'
        · simp only [hbet, if_neg, not_false_iff] at h
          rcases ih _ bp bm h with hl | ⟨t1, c', t2, hsplit, hc1, hc2, hbconj, hl1⟩
          · exact Or.inl hl
          · have hm0 := hbconj p0 m0 rfl
            refine Or.inr ⟨c :: t1, c', t2, by rw [hsplit, List.cons_append], hc1, hc2, ?_, ?_⟩
            · intro p1 m1 hb
              injection hb with hb
              have := congrArg Prod.snd hb
              simp at this
              subst this
              exact hm0
            · intro x hx m' hm'
              rcases List.mem_cons.1 hx with rfl | hx
              · rw [hans] at hm'; injection hm' with hm'; subst hm'; omega
              · exact hl1 x hx m' hm'

theorem exists_first_split {α : Type} (p : α → Bool) :
    ∀ (l : List α), (∃ x ∈ l, p x) →
    ∃ l1 c l2, l = l1 ++ c :: l2 ∧ p c ∧ ∀ x ∈ l1, ¬ p x := by
  intro l
  induction l with
  | nil => rintro ⟨x, hx, _⟩; exact absurd hx (by simp)
  | cons c t ih =>
    rintro ⟨x, hx, hpx⟩
    by_cases hc : p c
    · exact ⟨[], c, t, by simp, hc, by simp⟩
    · rcases List.mem_cons.1 hx with rfl | hx
      · exact absurd hpx hc
      · obtain ⟨l1, c', l2, hsplit, hc', hl1⟩ := ih ⟨x, hx, hpx⟩
        refine ⟨c :: l1, c', l2, by rw [hsplit, List.cons_append], hc', ?_⟩
        intro y hy
        rcases List.mem_cons.1 hy with rfl | hy
        · exact hc
        · exact hl1 y hy

/-- C2: First-match selection over a group pattern's children: each live
candidate is asked for its earliest match at or after `pos`; a candidate
answering null is dropped from the live list for the rest of the pass;
among answering candidates the smallest match start wins, ties broken by
declaration order (the earliest such candidate in the list); and the
search short-circuits as soon as a candidate matches exactly at `pos`,
leaving the candidates after it untouched.  Stated over `FirstMatchPure`,
the selection loop `FirstMatchGo` of `Pattern.FirstMatch` with the
candidates' per-call answers, under the matcher contract that every
answer starts at or after `pos`. -/
theorem claim_C2_first_match_selection {α β : Type}
    (ans : α → Option β × Option MatchObject) (pos : Nat) (children : List α)
    (hpos : ∀ c ∈ children, ∀ m, (ans c).2 = some m → (pos : Int) ≤ m.getD 0 0) :
    (∀ bp bm, (FirstMatchPure ans pos children).1 = some (bp, bm) →
      ∀ c ∈ children, ∀ m, (ans c).2 = some m → bm.getD 0 0 ≤ m.getD 0 0) ∧
    (∀ bp bm, (FirstMatchPure ans pos children).1 = some (bp, bm) →
      ∃ l1 c l2, children = l1 ++ c :: l2 ∧ (ans c).1 = bp ∧ (ans c).2 = some bm ∧
        ∀ c' ∈ l1, ∀ m', (ans c').2 = some m' → bm.getD 0 0 < m'.getD 0 0) ∧
    ((FirstMatchPure ans pos children).1 = none → ∀ c ∈ children, (ans c).2 = none) ∧
    ((∀ c ∈ children, ∀ m, (ans c).2 = some m → m.getD 0 0 ≠ (pos : Int)) →
      (FirstMatchPure ans pos children).2
        = children.filter (fun c => ((ans c).2).isSome)) ∧
    (∀ l1 c l2 m, children = l1 ++ c :: l2 → (ans c).2 = some m →
      m.getD 0 0 = (pos : Int) →
      (∀ c' ∈ l1, ∀ m', (ans c').2 = some m' → m'.getD 0 0 ≠ (pos : Int)) →
      (FirstMatchPure ans pos children).1 = some ((ans c).1, m) ∧
      (FirstMatchPure ans pos children).2
        = l1.filter (fun c' => ((ans c').2).isSome) ++ c :: l2) := by
  have hbreak : ∀ (l1 : List α) (c : α) (l2 : List α) (m : MatchObject),
      children = l1 ++ c :: l2 → (ans c).2 = some m →
      m.getD 0 0 = (pos : Int) →
      (∀ c' ∈ l1, ∀ m', (ans c').2 = some m' → m'.getD 0 0 ≠ (pos : Int)) →
      (FirstMatchPure ans pos children).1 = some ((ans c).1, m) ∧
      (FirstMatchPure ans pos children).2
        = l1.filter (fun c' => ((ans c').2).isSome) ++ c :: l2 := by
    intro l1 c l2 m hsplit hm hmp hl1
    have hl1' : ∀ c' ∈ l1, ∀ m', (ans c').2 = some m' →
        (pos : Int) ≤ m'.getD 0 0 ∧ m'.getD 0 0 ≠ (pos : Int) := by
      intro c' hc' m' hm'
      have hc'' : c' ∈ children := by rw [hsplit]; exact List.mem_append_left _ hc'
      exact ⟨hpos c' hc'' m' hm', hl1 c' hc' m' hm'⟩
    have hfmg := FirstMatchGo_pure_break ans pos l1 c l2 m none hm hmp hl1'
      (by intro p0 m0 h; simp at h)
    rw [hsplit]
    constructor
    · show (FirstMatchGo (σ := Unit) (fun c _ => (ans c, ())) pos
        (l1 ++ c :: l2) none ()).1 = _
      rw [hfmg]
    · show (FirstMatchGo (σ := Unit) (fun c _ => (ans c, ())) pos
        (l1 ++ c :: l2) none ()).2.1 = _
      rw [hfmg]
  by_cases hA : ∀ c ∈ children, ∀ m, (ans c).2 = some m → m.getD 0 0 ≠ (pos : Int)
  · -- no candidate matches exactly at pos: the loop runs to the end
    have hfmg := FirstMatchGo_pure_of_no_pos ans pos children none hA
    have hres : (FirstMatchPure ans pos children).1 = foldBest ans children none := by
      show (FirstMatchGo (σ := Unit) (fun c _ => (ans c, ())) pos
        children none ()).1 = _
      rw [hfmg]
    have hlive : (FirstMatchPure ans pos children).2
        = children.filter (fun c => ((ans c).2).isSome) := by
      show (FirstMatchGo (σ := Unit) (fun c _ => (ans c, ())) pos
        children none ()).2.1 = _
      rw [hfmg]
    refine ⟨?_, ?_, ?_, fun _ => hlive, hbreak⟩
    · intro bp bm h
      rw [hres] at h
      exact (foldBest_min ans children none bp bm h).1
    · intro bp bm h
      rw [hres] at h
      rcases foldBest_split ans children none bp bm h with hl | ⟨l1, c, l2, h1, h2, h3, _, h5⟩
      · exact absurd hl (by simp)
      · exact ⟨l1, c, l2, h1, h2, h3, h5⟩
    · intro h
      rw [hres] at h
      exact (foldBest_none ans children none h).2
  · -- some candidate matches exactly at pos: take the first one
    push_neg at hA
    obtain ⟨c0, hc0, m0, hm0, hmp0⟩ := hA
    have hex : ∃ x ∈ children, (fun c =>
        match (ans c).2 with
        | none => false
        | some m => decide (m.getD 0 0 = (pos : Int))) x = true := by
      refine ⟨c0, hc0, ?_⟩
      simp only [hm0, decide_eq_true_eq]
      exact hmp0
    obtain ⟨l1, c, l2, hsplit, hc, hl1⟩ := exists_first_split _ children hex
    have hm : ∃ m, (ans c).2 = some m ∧ m.getD 0 0 = (pos : Int) := by
      cases hca : (ans c).2 with
      | none => simp [hca] at hc
      | some m =>
        simp only [hca, decide_eq_true_eq] at hc
        exact ⟨m, rfl, hc⟩
    obtain ⟨m, hma, hmp⟩ := hm
    have hl1' : ∀ c' ∈ l1, ∀ m', (ans c').2 = some m' → m'.getD 0 0 ≠ (pos : Int) := by
      intro c' hc' m' hm'
      have h := hl1 c' hc'
      simp only [hm', decide_eq_true_eq] at h
      exact h
    have hres := hbreak l1 c l2 m hsplit hma hmp hl1'
    refine ⟨?_, ?_, ?_, ?_, hbreak⟩
    · intro bp bm h
      rw [hres.1] at h
      injection h with h
      have h2 := congrArg Prod.snd h
      simp at h2
      subst h2
      rw [hmp]
      exact hpos
    · intro bp bm h
      rw [hres.1] at h
      injection h with h
      have h1 := congrArg Prod.fst h
      have h2 := congrArg Prod.snd h
      simp at h1 h2
      subst h2
      refine ⟨l1, c, l2, hsplit, h1, hma, ?_⟩
      intro c' hc' m' hm'
      have hle : (pos : Int) ≤ m'.getD 0 0 := by
        refine hpos c' ?_ m' hm'
        rw [hsplit]; exact List.mem_append_left _ hc'
      have hne := hl1' c' hc' m' hm'
      rw [hmp]
      omega
    · intro h
      rw [hres.1] at h
      exact absurd h (by simp)
    · intro h
      have hmem : c ∈ children := by
        rw [hsplit]
        exact List.mem_append_right l1 (List.mem_cons_self c l2)
      exact absurd hmp (h c hmem m hma)

/-- Concrete candidate answers exercising C2: at `pos = 3` candidate 0
answers `[5,6]`, candidate 1 answers `[3,4]`, candidate 2 answers `[3,9]`. -/
def ansC2 (c : Nat) : Option Nat × Option MatchObject :=
  if c = 0 then (some 0, some [5, 6])
  else if c = 1 then (some 1, some [3, 4])
  else (some 2, some [3, 9])

/-- Witness for C2: candidate 1 wins (smallest start, earliest declared,
short-circuiting at `pos = 3`), and by the theorem its start is minimal. -/
theorem claim_C2_witness :
    (FirstMatchPure ansC2 3 [0, 1, 2]).1 = some (some 1, [3, 4]) ∧
    (∀ c ∈ [0, 1, 2], ∀ m : MatchObject, (ansC2 c).2 = some m →
      (([3, 4] : MatchObject).getD 0 0) ≤ m.getD 0 0) := by
  constructor
  · decide
  · exact (claim_C2_first_match_selection ansC2 3 [0, 1, 2]
      (by decide)).1 (some 1) [3, 4] (by decide)

/-!
### Capture-to-subtree mapping (`Pattern.CreateCaptureNodes`)
-/

theorem capAssignLoop_map (ranges : List (Int × Int)) :
    ∀ (capt : List Capture) (parents : Nat → Option ParentRef)
      (acc : List (Nat × String × (Int × Int) × ParentRef)),
    (CapAssignLoop ranges capt parents acc).map (fun e => (e.1, e.2.1, e.2.2.1))
      = acc.map (fun e => (e.1, e.2.1, e.2.2.1))
        ++ capt.filterMap (fun v =>
             if v.key ≥ ranges.length ∨ (ranges.getD v.key (0, 0)).1 = -1 then none
             else some (v.key, v.name, ranges.getD v.key (0, 0))) := by
  intro capt
  induction capt with
  | nil => intro parents acc; simp [CapAssignLoop]
  | cons v rest ih =>
    intro parents acc
    rw [CapAssignLoop]
    by_cases hskip : v.key ≥ ranges.length ∨ (ranges.getD v.key (0, 0)).1 = -1
    · simp only [hskip, if_pos, List.filterMap_cons]
      rw [ih]
    · simp only [hskip, if_neg, not_false_iff, List.filterMap_cons]
      rw [ih]
      simp [hskip]

theorem capAssignLoop_group0_caller (ranges : List (Int × Int)) :
    ∀ (capt : List Capture) (parents : Nat → Option ParentRef)
      (acc : List (Nat × String × (Int × Int) × ParentRef)),
    (∀ e ∈ acc, e.1 = 0 → e.2.2.2 = .caller) →
    ∀ e ∈ CapAssignLoop ranges capt parents acc, e.1 = 0 → e.2.2.2 = .caller := by
  intro capt
  induction capt with
  | nil =>
    intro parents acc hacc
    rw [CapAssignLoop]
    exact hacc
  | cons v rest ih =>
    intro parents acc hacc
    rw [CapAssignLoop]
    by_cases hskip : v.key ≥ ranges.length ∨ (ranges.getD v.key (0, 0)).1 = -1
    · simp only [hskip, if_pos]
      exact ih parents acc hacc
    · simp only [hskip, if_neg, not_false_iff]
      refine ih _ _ ?_
      intro e he
      rcases List.mem_append.1 he with he | he
      · exact hacc e he
      · have he' := List.mem_singleton.1 he
        subst he'
        intro h0
        have h0' : v.key = 0 := h0
        simp [h0']

theorem capParentScan_zero (ranges : List (Int × Int)) (r : Int × Int) :
    ∀ k, (∀ j < k, ¬ coversB (ranges.getD j (0, 0)) r) →
    CapParentScan ranges r k = 0 := by
  intro k
  induction k with
  | zero => intro _; rfl
  | succ k ih =>
    intro h
    rw [CapParentScan, if_neg (h k (Nat.lt_succ_self k))]
    exact ih (fun j hj => h j (Nat.lt_succ_of_lt hj))

theorem capParentScan_greatest (ranges : List (Int × Int)) (r : Int × Int) :
    ∀ k j0, j0 < k → coversB (ranges.getD j0 (0, 0)) r →
    (∀ j', j0 < j' → j' < k → ¬ coversB (ranges.getD j' (0, 0)) r) →
    CapParentScan ranges r k = j0 := by
  intro k
  induction k with
  | zero => intro j0 h; omega
  | succ k ih =>
    intro j0 hlt hcov hmax
    by_cases hk : j0 = k
    · subst hk
      rw [CapParentScan, if_pos hcov]
    · have hj0k : j0 < k := by omega
      have hnk : ¬ coversB (ranges.getD k (0, 0)) r :=
        hmax k hj0k (Nat.lt_succ_self k)
      rw [CapParentScan, if_neg hnk]
      exact ih j0 hj0k hcov (fun j' h1 h2 => hmax j' h1 (Nat.lt_succ_of_lt h2))

/-- C3 counterexample.  Match object `[0,10, 0,5, 1,3]` (group 0 spans
(0,10), group 1 spans (0,5), group 2 spans (1,3)) with captures for
groups 0, 1 and 2.  The claim predicts that group 1's node is appended
to the caller's parent node, and that group 2's parent is the
lowest-indexed covering group (group 0).  In fact the caller's parent
receives only the group-0 node, under which group 1 nests, under which
group 2 nests (the scan picks the highest-indexed earlier covering
group, and group 1 attaches to group 0's node once one exists). -/
theorem claim_C3_counterexample :
    ¬ ("g1" ∈ ((CreateCaptureNodes [0, 10, 0, 5, 1, 3] (Node.mk "p" 0 10 [])
        [⟨0, "g0"⟩, ⟨1, "g1"⟩, ⟨2, "g2"⟩]).children.map Node.name)) ∧
    (CreateCaptureNodes [0, 10, 0, 5, 1, 3] (Node.mk "p" 0 10 [])
        [⟨0, "g0"⟩, ⟨1, "g1"⟩, ⟨2, "g2"⟩]).flat
      = [("p", 0, 10, 1), ("g0", 0, 10, 1), ("g1", 0, 5, 1), ("g2", 1, 3, 0)] := by
  exact ⟨by decide, by decide⟩

/-- C3 as amended: one node is created per capture whose group index is
in range and whose start is not −1, in capture-list order, carrying the
group's span; a group-0 node is appended to the caller's parent node; and
for groups `i ≥ 2` the parent scan resolves to the **highest**-indexed
earlier group whose span covers group `i` (with 0 as the default when no
earlier group covers it), the node then being appended to the nearest
created node along that chain (`CapWalk`). -/
theorem claim_C3_capture_mapping (ranges : List (Int × Int))
    (capt : List Capture) (parents : Nat → Option ParentRef) (i : Nat)
    (hi : 2 ≤ i) :
    ((CapAssignLoop ranges capt parents []).map (fun e => (e.1, e.2.1, e.2.2.1))
      = capt.filterMap (fun v =>
          if v.key ≥ ranges.length ∨ (ranges.getD v.key (0, 0)).1 = -1 then none
          else some (v.key, v.name, ranges.getD v.key (0, 0)))) ∧
    (∀ e ∈ CapAssignLoop ranges capt parents [], e.1 = 0 → e.2.2.2 = .caller) ∧
    ((∀ j < i, ¬ coversB (ranges.getD j (0, 0)) (ranges.getD i (0, 0))) →
      CapParentIndex ranges i = 0) ∧
    (∀ j0, j0 < i → coversB (ranges.getD j0 (0, 0)) (ranges.getD i (0, 0)) →
      (∀ j', j0 < j' → j' < i →
        ¬ coversB (ranges.getD j' (0, 0)) (ranges.getD i (0, 0))) →
      CapParentIndex ranges i = j0) := by
  refine ⟨?_, capAssignLoop_group0_caller ranges capt parents [] (by simp), ?_, ?_⟩
  · have h := capAssignLoop_map ranges capt parents []
    rw [List.map_nil, List.nil_append] at h
    exact h
  · intro h
    rw [CapParentIndex, if_neg (by omega)]
    exact capParentScan_zero ranges _ i h
  · intro j0 h1 h2 h3
    rw [CapParentIndex, if_neg (by omega)]
    exact capParentScan_greatest ranges _ i j0 h1 h2 h3

/-- Witness for the amended C3 at the counterexample's input: group 2's
parent index resolves to group 1 — the highest-indexed covering group —
and the assignment list matches the filtered capture list. -/
theorem claim_C3_witness :
    CapParentIndex (CaptureRanges [0, 10, 0, 5, 1, 3]) 2 = 1 ∧
    ((CapAssignLoop (CaptureRanges [0, 10, 0, 5, 1, 3])
        [⟨0, "g0"⟩, ⟨1, "g1"⟩, ⟨2, "g2"⟩]
        (fun j => if j < 2 ∧ j < 3 then some .caller else none) []).map
          (fun e => (e.1, e.2.1, e.2.2.1))
      = [(0, "g0", (0, 10)), (1, "g1", (0, 5)), (2, "g2", (1, 3))]) := by
  constructor
  · exact (claim_C3_capture_mapping (CaptureRanges [0, 10, 0, 5, 1, 3])
      [] (fun _ => none) 2 (by decide)).2.2.2 1 (by decide) (by decide)
      (by intro j' h1 h2; omega)
  · rw [(claim_C3_capture_mapping (CaptureRanges [0, 10, 0, 5, 1, 3])
      [⟨0, "g0"⟩, ⟨1, "g1"⟩, ⟨2, "g2"⟩]
      (fun j => if j < 2 ∧ j < 3 then some .caller else none) 2 (by decide)).1]
    decide

/-!
### Begin/end region expansion (`Pattern.CreateNode`)
-/

/-- C4: the begin/end interleaving rule, stated on one iteration of the
region-expansion loop with the end match present.  If the sub-pattern
match starts strictly before the end match, or at the same offset while
the outer node is still zero-width, the loop builds the sub-pattern's
node, appends it as a child, advances the cursor to the child's end and
loops; in every other situation (sub-pattern match too late, no
sub-pattern match, or no live candidates) the end match wins and the
region closes at the end match's end offset (after appending the
end-capture nodes). -/
theorem claim_C4_interleaving (endRe : RegexF) (data : List Nat)
    (endCaps : MatchObject → Node → Node) (liveLen : Store → Nat)
    (firstM : Nat → Store → Option PatId × Option MatchObject × Store)
    (build : PatId → Nat → MatchObject → Store → Node × Store)
    (fuel i : Nat) (endv : Int) (found : Bool) (node : Node) (st : Store)
    (hlt : i < data.length) (em : MatchObject) (hem : endRe data i = some em) :
    (∀ pat2 m2 st',
      liveLen st > 0 → firstM i st = (some pat2, some m2, st') →
      (m2.getD 0 0 < em.getD 0 0 ∨
        (m2.getD 0 0 = em.getD 0 0 ∧ node.a = node.b)) →
      CreateNodeLoopG endRe data endCaps liveLen firstM build (fuel + 1)
          i endv found node st
        = CreateNodeLoopG endRe data endCaps liveLen firstM build fuel
            (build pat2 i m2 st').1.b.toNat (em.getD 1 0) true
            (node.append (build pat2 i m2 st').1) (build pat2 i m2 st').2) ∧
    (∀ pat2 m2 st',
      liveLen st > 0 → firstM i st = (some pat2, some m2, st') →
      ¬ (m2.getD 0 0 < em.getD 0 0 ∨
        (m2.getD 0 0 = em.getD 0 0 ∧ node.a = node.b)) →
      CreateNodeLoopG endRe data endCaps liveLen firstM build (fuel + 1)
          i endv found node st
        = ((endCaps em node).setB (em.getD 1 0), st')) ∧
    (∀ pat2 st',
      liveLen st > 0 → firstM i st = (pat2, none, st') →
      CreateNodeLoopG endRe data endCaps liveLen firstM build (fuel + 1)
          i endv found node st
        = ((endCaps em node).setB (em.getD 1 0), st')) ∧
    (liveLen st = 0 →
      CreateNodeLoopG endRe data endCaps liveLen firstM build (fuel + 1)
          i endv found node st
        = ((endCaps em node).setB (em.getD 1 0), st)) := by
  refine ⟨?_, ?_, ?_, ?_⟩
  · intro pat2 m2 st' hlive hfm hcond
    rw [CreateNodeLoopG, if_pos hlt, hem]
    simp only [hfm, hlive, if_pos]
    rw [if_pos hcond]
  · intro pat2 m2 st' hlive hfm hcond
    rw [CreateNodeLoopG, if_pos hlt, hem]
    simp only [hfm, hlive, if_pos]
    rw [if_neg hcond]
  · intro pat2 st' hlive hfm
    rw [CreateNodeLoopG, if_pos hlt, hem]
    simp only [hfm, hlive, if_pos]
  · intro hlive
    rw [CreateNodeLoopG, if_pos hlt, hem]
    simp [hlive]

theorem Node.setB_b (n : Node) (x : Int) : (n.setB x).b = x := rfl

theorem foldl_max_b_le (K : Int) :
    ∀ (l : List Node) (acc : Int), acc ≤ K → (∀ c ∈ l, c.b ≤ K) →
    l.foldl (fun acc c => max acc c.b) acc ≤ K := by
  intro l
  induction l with
  | nil => intro acc hacc _; simpa using hacc
  | cons c t ih =>
    intro acc hacc h
    rw [List.foldl_cons]
    exact ih _ (max_le hacc (h c (List.mem_cons_self c t)))
      (fun x hx => h x (List.mem_cons_of_mem _ hx))

/-- The deferred `UpdateRange` cannot push a node's end past any bound that covers the
entire subtree's declared ends. -/
theorem updateRange_b_le (K : Int) :
    ∀ n : Node, (∀ e ∈ n.flat, e.2.2.1 ≤ K) → (n.updateRange).b ≤ K := by
  intro n
  induction n using Node.rec
    (motive_2 := fun l => (∀ e ∈ flatList l, e.2.2.1 ≤ K) →
      ∀ c ∈ updateRangeList l, c.b ≤ K) with
  | mk nm a b ch ih =>
    intro h
    have hb : b ≤ K := by
      have := h (nm, a, b, ch.length) (by rw [Node.flat]; exact List.mem_cons_self _ _)
      simpa using this
    have hch : ∀ e ∈ flatList ch, e.2.2.1 ≤ K := by
      intro e he
      exact h e (by rw [Node.flat]; exact List.mem_cons_of_mem _ he)
    rw [Node.updateRange]
    show List.foldl (fun acc c => max acc c.b) b (updateRangeList ch) ≤ K
    exact foldl_max_b_le K _ b hb (ih hch)
  | nil =>
    rename_i h c hc
    rw [updateRangeList] at hc
    exact absurd hc (by simp)
  | cons n t ihn iht =>
    rename_i h c hc
    have hn : ∀ e ∈ n.flat, e.2.2.1 ≤ K := by
      intro e he
      refine h e ?_
      rw [flatList]
      exact List.mem_append_left _ he
    have ht : ∀ e ∈ flatList t, e.2.2.1 ≤ K := by
      intro e he
      refine h e ?_
      rw [flatList]
      exact List.mem_append_right _ he
    rw [updateRangeList] at hc
    rcases List.mem_cons.1 hc with rfl | hc
    · exact ihn hn
    · exact iht ht c hc

theorem findIdx?_some_prop {α : Type} (d : α) (p : α → Bool) :
    ∀ (l : List α) (s k : Nat), List.findIdx? p l s = some k →
    s ≤ k ∧ k - s < l.length ∧ p (l.getD (k - s) d) := by
  intro l
  induction l with
  | nil => intro s k h; rw [List.findIdx?] at h; exact absurd h (by simp)
  | cons a t ih =>
    intro s k h
    rw [List.findIdx?] at h
    by_cases hp : p a
    · rw [if_pos hp] at h
      injection h with h
      subst h
      refine ⟨le_refl _, by simp, ?_⟩
      simpa using hp
    · rw [if_neg hp] at h
      obtain ⟨h1, h2, h3⟩ := ih (s + 1) k h
      refine ⟨by omega, by simp; omega, ?_⟩
      have hk : k - s = (k - (s + 1)) + 1 := by omega
      rw [hk]
      simpa using h3

/-- The search `IndexNl` finds a line-feed byte inside the input. -/
theorem IndexNl_spec (data : List Nat) (i e2 : Nat) (h : IndexNl data i = some e2) :
    i + e2 < data.length ∧ data.getD (i + e2) 0 = 10 := by
  rw [IndexNl] at h
  obtain ⟨_, h2, h3⟩ := findIdx?_some_prop 0 (fun b => b = 10) (data.drop i) 0 e2 h
  rw [List.length_drop] at h2
  have hlen : i + e2 < data.length := by omega
  refine ⟨hlen, ?_⟩
  simp only [Nat.sub_zero, decide_eq_true_eq] at h3
  have hget : (data.drop i).getD e2 0 = data.getD (i + e2) 0 := by
    rw [List.getD_eq_getElem _ _ (by rw [List.length_drop]; omega),
      List.getD_eq_getElem _ _ hlen, List.getElem_drop]
  rw [hget] at h3
  exact h3

/-- C5: degenerate RangePattern termination.  When the end regex fails at
the cursor: with sub-patterns already consumed the region closes exactly
at the cursor; with nothing consumed it closes at the next line feed
(shown to be a `'\n'` byte inside the input) or at end of input.  And the
declared close of the region-expansion loop never passes end-of-input
(given the regex contract on the end matches), nor can the deferred
`UpdateRange` push the end past a bound covering the subtree. -/
theorem claim_C5_degenerate_termination (endRe : RegexF) (data : List Nat)
    (endCaps : MatchObject → Node → Node) (liveLen : Store → Nat)
    (firstM : Nat → Store → Option PatId × Option MatchObject × Store)
    (build : PatId → Nat → MatchObject → Store → Node × Store) :
    (∀ fuel i endv node st, i < data.length → endRe data i = none →
      CreateNodeLoopG endRe data endCaps liveLen firstM build (fuel + 1)
          i endv true node st
        = (node.setB (i : Int), st)) ∧
    (∀ fuel i endv node st, i < data.length → endRe data i = none →
      CreateNodeLoopG endRe data endCaps liveLen firstM build (fuel + 1)
          i endv false node st
        = (node.setB (match IndexNl data i with
            | some e2 => ((i : Int) + (e2 : Int))
            | none => (data.length : Int)), st)) ∧
    (∀ i e2, IndexNl data i = some e2 →
      i + e2 < data.length ∧ data.getD (i + e2) 0 = 10) ∧
    ((∀ j em, endRe data j = some em → em.getD 1 0 ≤ (data.length : Int)) →
      ∀ fuel i endv found node st, endv ≤ (data.length : Int) →
        (CreateNodeLoopG endRe data endCaps liveLen firstM build
          fuel i endv found node st).1.b ≤ (data.length : Int)) ∧
    (∀ (n : Node) (K : Int), (∀ e ∈ n.flat, e.2.2.1 ≤ K) →
      (n.updateRange).b ≤ K) := by
  refine ⟨?_, ?_, IndexNl_spec data, ?_, fun n K h => updateRange_b_le K n h⟩
  · intro fuel i endv node st hlt hnone
    rw [CreateNodeLoopG, if_pos hlt, hnone]
    rfl
  · intro fuel i endv node st hlt hnone
    rw [CreateNodeLoopG, if_pos hlt, hnone]
    cases hnl : IndexNl data i <;> simp [hnl]
  · intro hend fuel
    induction fuel with
    | zero =>
      intro i endv found node st hendv
      rw [CreateNodeLoopG, Node.setB_b]
      exact hendv
    | succ fuel ih =>
      intro i endv found node st hendv
      rw [CreateNodeLoopG]
      by_cases hlt : i < data.length
      · rw [if_pos hlt]
        cases hem : endRe data i with
        | none =>
          cases found with
          | true => simp only [Bool.not_true, if_neg, Bool.false_eq_true,
              not_false_iff, Node.setB_b]; exact_mod_cast le_of_lt hlt
          | false =>
            simp only [Bool.not_false, if_pos]
            cases hnl : IndexNl data i with
            | none => rw [Node.setB_b]
            | some e2 =>
              rw [Node.setB_b]
              have := (IndexNl_spec data i e2 hnl).1
              have : ((i + e2 : Nat) : Int) ≤ (data.length : Int) := by
                exact_mod_cast le_of_lt this
              push_cast at this ⊢
              omega
        | some em =>
          have hem1 : em.getD 1 0 ≤ (data.length : Int) := hend i em hem
          rcases hfm : firstM i st with ⟨p2, m2, st'⟩
          by_cases hlive : liveLen st > 0
          · cases m2 with
            | none =>
              simp only [hfm, hlive, if_pos]
              exact hem1
            | some match2 =>
              by_cases hcond : match2.getD 0 0 < em.getD 0 0 ∨
                  (match2.getD 0 0 = em.getD 0 0 ∧ node.a = node.b)
              · cases p2 with
                | none =>
                  simp only [hfm, hlive, hcond, if_pos, ite_true]
                  exact hem1
                | some pat2 =>
                  simp only [hfm, hlive, hcond, if_pos, ite_true]
                  exact ih _ _ _ _ _ hem1
              · simp only [hfm, hlive, hcond, if_pos, ite_false, if_neg,
                  not_false_iff]
                exact hem1
          · simp only [hfm, if_neg hlive]
            exact hem1
      · rw [if_neg hlt, Node.setB_b]
        exact hendv

/-- Concrete collaborators exercising the region-expansion loop: input
`"abc"`, end match at `(2,3)`, sub-pattern match at `(1,2)`, child nodes
built directly from the match span. -/
def c4data : List Nat := [97, 98, 99]

def c4end : RegexF := fun _ j => if j ≤ 2 then some [2, 3] else none

def c4pid : PatId := ⟨.root, [0]⟩

def c4firstM : Nat → Store → Option PatId × Option MatchObject × Store :=
  fun _ st => (some c4pid, some [1, 2], st)

def c4build : PatId → Nat → MatchObject → Store → Node × Store :=
  fun _ _ m st => (Node.mk "c" (m.getD 0 0) (m.getD 1 0) [], st)

def c4caps : MatchObject → Node → Node := fun _ n => n

def c4live : Store → Nat := fun _ => 1

def c4node : Node := Node.mk "r" 0 1 []

/-- Witness for C4: at cursor 1 the sub-pattern match `(1,2)` starts
strictly before the end match `(2,3)`, so the loop builds the child,
appends it and continues from the child's end. -/
theorem claim_C4_witness :
    CreateNodeLoopG c4end c4data c4caps c4live c4firstM c4build (5 + 1)
        1 3 false c4node Store.init
      = CreateNodeLoopG c4end c4data c4caps c4live c4firstM c4build 5
          (c4build c4pid 1 [1, 2] Store.init).1.b.toNat
          (([2, 3] : MatchObject).getD 1 0) true
          (c4node.append (c4build c4pid 1 [1, 2] Store.init).1)
          (c4build c4pid 1 [1, 2] Store.init).2 :=
  (claim_C4_interleaving c4end c4data c4caps c4live c4firstM c4build
      5 1 3 false c4node Store.init (by decide) [2, 3] rfl).1
    c4pid [1, 2] Store.init (by decide) rfl (Or.inl (by decide))

/-- Collaborators for the degenerate case: the end regex never matches. -/
def c5end : RegexF := fun _ _ => none

def c5firstM : Nat → Store → Option PatId × Option MatchObject × Store :=
  fun _ st => (none, none, st)

def c5build : PatId → Nat → MatchObject → Store → Node × Store :=
  fun _ _ _ st => (Node.mk "" 0 0 [], st)

/-- Witness for C5: with the end regex failing at cursor 1 of `"ab"` and
a sub-pattern already consumed (`found = true`), the region closes
exactly at the cursor. -/
theorem claim_C5_witness :
    CreateNodeLoopG c5end [97, 98] c4caps (fun _ => 0) c5firstM c5build (4 + 1)
        1 2 true c4node Store.init
      = (c4node.setB (1 : Int), Store.init) :=
  (claim_C5_degenerate_termination c5end [97, 98] c4caps (fun _ => 0)
      c5firstM c5build).1 4 1 2 c4node Store.init (by decide) rfl

/-!
### The driver's main loop (`Parser.Parse`)
-/

/-- A concrete instance of the external regex engine's contract: the
earliest occurrence of a literal byte string at or after `pos`, reported
as `[start, end]`. -/
def litFind (pat : List Nat) : RegexF := fun data pos =>
  match (List.range (data.length + 1)).find?
      (fun s => s ≥ pos ∧ s + pat.length ≤ data.length ∧
        (data.drop s).take pat.length = pat) with
  | some s => some [(s : Int), ((s + pat.length : Nat) : Int)]
  | none => none

/-- The position component of a driver-loop step: `none` for a `break`. -/
def stepPos {σ : Type} : StepRes σ → Option Nat
  | .brk _ _ => none
  | .cont i _ _ => some i

/-- The state component of a driver-loop step. -/
def stepState {σ : Type} : StepRes σ → σ
  | .brk _ st => st
  | .cont _ _ st => st

/-- The built node of a driver-loop step (flattened), with the new
position. -/
def stepNodeFlat {σ : Type} : StepRes σ → Option (Nat × List (String × Int × Int × Nat))
  | .cont i (some n) _ => some (i, n.flat)
  | _ => none

/-- Grammar with a single pattern matching a literal line feed, run over
the input `"\nab"`. -/
def c6lang : Language :=
  ⟨"t", .mk "" "" none [] none [] none [] [.mk "nl" "" (some (litFind [10])) [] none [] none [] []], []⟩

def c6sdata : List Nat := [10, 97, 98]

/-- C6 counterexample.  On `"\nab"` at position 0 the next newline is at
offset 0 and the root match starts at offset 0, so the claim's condition
`next_nl ≥ 0 ∧ next_nl ≤ span[0]` holds and it prescribes the fast-path
(advance past the newline run, build no node).  The source tests
`nl > 0`, so it instead builds the node `"nl" (0,1)` for that iteration. -/
theorem claim_C6_counterexample :
    IndexAnyNl c6sdata 0 = 0 ∧
    (ParseMatcher c6lang 10 c6sdata 0 Store.init).1.2 = some [0, 1] ∧
    stepNodeFlat (ParseStep (ParseMatcher c6lang 10 c6sdata)
        (ParseBuilder c6lang 10 c6sdata) c6sdata 0 Store.init)
      = some (1, [("nl", 0, 1, 0)]) := by
  exact ⟨by decide, by decide, by decide⟩

/-- C6 as amended: in every main-loop iteration in which the root match
exists, the driver takes the newline fast-path — advancing to the next
newline and then past the whole run of consecutive newline bytes, and
building no node — exactly when the next newline exists at a **positive**
offset (`nl > 0`, not `nl ≥ 0`: a newline at offset 0 does not trigger
the fast-path) and lies at or before the start of the root match;
otherwise it builds a node from the match and advances the position to
the node's range end. -/
theorem claim_C6_linebreak_fastpath {σ : Type}
    (matcher : Nat → σ → (Option PatId × Option MatchObject) × σ)
    (builder : PatId → Nat → MatchObject → σ → Node × σ)
    (sdata : List Nat) (i : Nat) (st : σ) (pat : PatId) (mo : MatchObject)
    (st' : σ) (hm : matcher i st = ((some pat, some mo), st')) :
    (IndexAnyNl sdata i > 0 ∧ IndexAnyNl sdata i ≤ mo.getD 0 0 →
      ParseStep matcher builder sdata i st
        = .cont (SkipNl sdata (IndexAnyNl sdata i).toNat) none st') ∧
    (¬ (IndexAnyNl sdata i > 0 ∧ IndexAnyNl sdata i ≤ mo.getD 0 0) →
      ParseStep matcher builder sdata i st
        = .cont (builder pat i mo st').1.b.toNat
            (some (builder pat i mo st').1) (builder pat i mo st').2) := by
  constructor
  · intro hc
    rw [ParseStep]
    simp only [hm]
    rw [if_pos hc]
  · intro hc
    rw [ParseStep]
    simp only [hm]
    rw [if_neg hc]

/-- Concrete fast-path collaborators: input `"a\nb"`, root match at
`(2,3)`. -/
def c6m2 : Nat → Store → (Option PatId × Option MatchObject) × Store :=
  fun _ st => ((some c4pid, some [2, 3]), st)

def c6b2 : PatId → Nat → MatchObject → Store → Node × Store :=
  fun _ _ m st => (Node.mk "n" (m.getD 0 0) (m.getD 1 0) [], st)

/-- Witness for the amended C6: on `"a\nb"` at position 0 the newline is
at offset 1 (> 0) and the match starts at 2, so the fast-path fires and
skips to position 2 without building a node. -/
theorem claim_C6_witness :
    ParseStep c6m2 c6b2 [97, 10, 98] 0 Store.init
      = .cont 2 none Store.init :=
  (claim_C6_linebreak_fastpath c6m2 c6b2 [97, 10, 98] 0 Store.init
    c4pid [2, 3] Store.init rfl).1 (by decide)

theorem IndexAnyNl_pos (sdata : List Nat) (i : Nat)
    (h : IndexAnyNl sdata i > 0) :
    ∃ k, (sdata.drop i).findIdx? (fun b => b = 10 ∨ b = 13) = some k ∧
      IndexAnyNl sdata i = ((i + k : Nat) : Int) := by
  rw [IndexAnyNl] at h ⊢
  cases hf : (sdata.drop i).findIdx? (fun b => b = 10 ∨ b = 13) with
  | none => rw [hf] at h; exact absurd h (by simp)
  | some k => exact ⟨k, rfl, rfl⟩

theorem SkipNlFrom_ge : ∀ (l : List Nat) (n : Nat), n ≤ SkipNlFrom l n := by
  intro l
  induction l with
  | nil => intro n; exact le_refl _
  | cons b t ih =>
    intro n
    rw [SkipNlFrom]
    by_cases hb : b = 10 ∨ b = 13
    · rw [if_pos hb]
      exact le_trans (Nat.le_succ n) (ih (n + 1))
    · rw [if_neg hb]

theorem SkipNl_gt (sdata : List Nat) (j : Nat) (hj : j < sdata.length)
    (hb : sdata.getD j 0 = 10 ∨ sdata.getD j 0 = 13) : j < SkipNl sdata j := by
  rw [SkipNl]
  have hdrop : sdata.drop j = sdata.getD j 0 :: sdata.drop (j + 1) := by
    rw [List.getD_eq_getElem _ _ hj]
    exact List.drop_eq_getElem_cons hj
  rw [hdrop, SkipNlFrom, if_pos hb]
  exact Nat.lt_of_lt_of_le (Nat.lt_succ_self j) (SkipNlFrom_ge _ _)

/-- A zero-width instance of the regex contract: matches `[pos, pos]` at
every position inside the haystack (as an empty or pure-lookahead regex
does). -/
def zRe : RegexF := fun d pos =>
  if pos ≤ d.length then some [(pos : Int), (pos : Int)] else none

/-- Grammar whose only pattern is the zero-width regex. -/
def zLang : Language :=
  ⟨"zero", .mk "" "" none [] none [] none [] [.mk "z" "" (some zRe) [] none [] none [] []], []⟩

/-- C7 counterexample.  The grammar's single pattern is a zero-width
regex (an empty or lookahead regex, matching `[pos, pos]` everywhere); on
`"ab"` at position 0 the driver's iteration builds a zero-width node and
continues the loop at position 0: it neither advances the position by a
rune nor terminates the loop, contradicting the claim's per-iteration
progress property (the loop then runs until its budget is exhausted). -/
theorem claim_C7_counterexample :
    stepPos (ParseStep (ParseMatcher zLang 5 [97, 98])
        (ParseBuilder zLang 5 [97, 98]) [97, 98] 0 Store.init) = some 0 := by
  decide

/-- C7 as amended: the newline fast-path always advances the position by
at least one rune, but a node-building iteration need not advance it (a
zero-width root match leaves `pos` unchanged, merely consuming budget);
the driver's main loop itself always returns, with the remaining budget
never exceeding the initial one, and whenever every iteration does
advance the position, a budget exceeding the remaining input length
is never exhausted (so the call does not fail with
IterationLimitExceeded). -/
theorem claim_C7_progress {σ : Type} :
    (∀ (matcher : Nat → σ → (Option PatId × Option MatchObject) × σ)
       (builder : PatId → Nat → MatchObject → σ → Node × σ)
       (sdata : List Nat) (i : Nat) (st : σ) (pat : Option PatId)
       (mo : MatchObject) (st' : σ),
       matcher i st = ((pat, some mo), st') →
       IndexAnyNl sdata i > 0 → IndexAnyNl sdata i ≤ mo.getD 0 0 →
       ParseStep matcher builder sdata i st
         = .cont (SkipNl sdata (IndexAnyNl sdata i).toNat) none st' ∧
       i < SkipNl sdata (IndexAnyNl sdata i).toNat) ∧
    (∀ (matcher : Nat → σ → (Option PatId × Option MatchObject) × σ)
       (builder : PatId → Nat → MatchObject → σ → Node × σ)
       (sdata : List Nat) (iter i : Nat) (acc : List Node) (st : σ),
       (ParseLoop matcher builder sdata iter i acc st).2.2.1 ≤ iter) ∧
    (∀ (matcher : Nat → σ → (Option PatId × Option MatchObject) × σ)
       (builder : PatId → Nat → MatchObject → σ → Node × σ)
       (sdata : List Nat),
       (∀ (i : Nat) (st : σ), i < sdata.length → ∀ i' n st',
          ParseStep matcher builder sdata i st = .cont i' n st' → i < i') →
       ∀ (iter i : Nat) (acc : List Node) (st : σ),
         sdata.length - i < iter →
         (ParseLoop matcher builder sdata iter i acc st).2.2.1 > 0) := by
  refine ⟨?_, ?_, ?_⟩
  · intro matcher builder sdata i st pat mo st' hm hnl hle
    obtain ⟨k, hf, hval⟩ := IndexAnyNl_pos sdata i hnl
    have hkprop := findIdx?_some_prop 0 (fun b => b = 10 ∨ b = 13)
      (sdata.drop i) 0 k hf
    rw [List.length_drop] at hkprop
    simp only [Nat.sub_zero] at hkprop
    obtain ⟨-, hklen, hkp⟩ := hkprop
    have hik : i + k < sdata.length := by omega
    have hkd : k < (sdata.drop i).length := by
      rw [List.length_drop]; omega
    have hgetd : (sdata.drop i).getD k 0 = sdata.getD (i + k) 0 := by
      rw [List.getD_eq_getElem _ _ hkd, List.getD_eq_getElem _ _ hik]
      exact List.getElem_drop _
    rw [decide_eq_true_eq] at hkp
    rw [hgetd] at hkp
    have hkp' : sdata.getD (i + k) 0 = 10 ∨ sdata.getD (i + k) 0 = 13 := hkp
    have htoNat : (IndexAnyNl sdata i).toNat = i + k := by
      rw [hval]; exact Int.toNat_natCast _
    constructor
    · rw [ParseStep]
      simp only [hm]
      rw [if_pos ⟨hnl, hle⟩]
    · rw [htoNat]
      have := SkipNl_gt sdata (i + k) hik hkp'
      omega
  · intro matcher builder sdata iter
    induction iter with
    | zero => intro i acc st; exact le_refl _
    | succ iter ih =>
      intro i acc st
      rw [ParseLoop]
      by_cases hi : i < sdata.length
      · rw [if_pos hi]
        cases ParseStep matcher builder sdata i st with
        | brk i' st' => exact le_refl _
        | cont i' n st' => exact le_trans (ih i' _ st') (Nat.le_succ iter)
      · rw [if_neg hi]
  · intro matcher builder sdata hadv iter
    induction iter with
    | zero => intro i acc st h; omega
    | succ iter ih =>
      intro i acc st h
      rw [ParseLoop]
      by_cases hi : i < sdata.length
      · rw [if_pos hi]
        cases hres : ParseStep matcher builder sdata i st with
        | brk i' st' => exact Nat.succ_pos iter
        | cont i' n st' =>
          have hlt := hadv i st hi i' n st' hres
          exact ih i' (acc ++ n.toList) st' (by omega)
      · rw [if_neg hi]
        exact Nat.succ_pos iter

/-- A matcher that never matches: every driver iteration breaks. -/
def c7brkM : Nat → Store → (Option PatId × Option MatchObject) × Store :=
  fun _ st => ((none, none), st)

/-- Witness for the amended C7: with a matcher that always breaks the
loop, every iteration trivially advances or exits, and a budget of 3
on a 2-byte input is not exhausted. -/
theorem claim_C7_witness :
    (ParseLoop c7brkM c6b2 [97, 98] 3 0 [] Store.init).2.2.1 > 0 :=
  (claim_C7_progress (σ := Store)).2.2 c7brkM c6b2 [97, 98]
    (by
      intro i st hi i' n st' h
      simp [ParseStep, c7brkM] at h)
    3 0 [] Store.init (by decide)

/-- If, from every state satisfying an invariant, the driver's step at
position 0 continues the loop at position 0 and preserves the invariant,
the loop exhausts any budget. -/
theorem ParseLoop_stuck {σ : Type}
    (matcher : Nat → σ → (Option PatId × Option MatchObject) × σ)
    (builder : PatId → Nat → MatchObject → σ → Node × σ)
    (sdata : List Nat) (INV : σ → Prop) (hlen : 0 < sdata.length)
    (hstep : ∀ s, INV s →
      stepPos (ParseStep matcher builder sdata 0 s) = some 0 ∧
      INV (stepState (ParseStep matcher builder sdata 0 s))) :
    ∀ (iter : Nat) (acc : List Node) (st : σ), INV st →
      (ParseLoop matcher builder sdata iter 0 acc st).2.2.1 = 0 := by
  intro iter
  induction iter with
  | zero => intro acc st _; rfl
  | succ iter ih =>
    intro acc st hinv
    rw [ParseLoop, if_pos hlen]
    obtain ⟨h1, h2⟩ := hstep st hinv
    cases hres : ParseStep matcher builder sdata 0 st with
    | brk i' st' =>
      rw [hres] at h1
      exact absurd h1 (by simp [stepPos])
    | cont i' n st' =>
      rw [hres] at h1 h2
      have hi' : i' = 0 := by
        simp [stepPos] at h1
        omega
      subst hi'
      exact ih _ st' h2

def zRoot : PatId := ⟨.root, []⟩

def zChild : PatId := ⟨.root, [0]⟩

/-- The stable part of the store state during the stuck run of the
zero-width grammar: the root's cache holds the zero-width match for the
haystack `"ab"` and points at the child, whose cache also holds it. -/
def zInv (s : Store) : Prop :=
  (s zRoot).cachedData = [97, 98] ∧ (s zRoot).cachedMatch = some [0, 0] ∧
  (s zRoot).cachedPat = some zChild ∧ (s zChild).cachedMatch = some [0, 0]

theorem zStep (s : Store) (h : zInv s) :
    stepPos (ParseStep (ParseMatcher zLang 5 [97, 98])
      (ParseBuilder zLang 5 [97, 98]) [97, 98] 0 s) = some 0 ∧
    zInv (stepState (ParseStep (ParseMatcher zLang 5 [97, 98])
      (ParseBuilder zLang 5 [97, 98]) [97, 98] 0 s)) := by
  obtain ⟨h1, h2, h3, h4⟩ := h
  have hcache : Cache zLang 5 zRoot [97, 98] 0 s
      = (some zChild, some [0, 0],
         Store.set s zRoot { s zRoot with hits := (s zRoot).hits + 1 }) := by
    rw [show (5 : Nat) = 4 + 1 from rfl, Cache]
    have hlook : zLang.lookupPat zRoot = some zLang.rootPattern := rfl
    simp only [hlook]
    rw [if_pos h1]
    simp only [h2]
    rw [if_pos ?cond]
    case cond =>
      refine ⟨by decide, ?_⟩
      rw [h3]
      simp [cachedPatAlive, h4]
    rw [h3]
  have hm : ParseMatcher zLang 5 [97, 98] 0 s
      = ((some zChild, some [0, 0]),
         Store.set s zRoot { s zRoot with hits := (s zRoot).hits + 1 }) := by
    simp only [ParseMatcher]
    rw [show ({ base := PatBase.root, path := [] } : PatId) = zRoot from rfl]
    rw [hcache]
  have hstep : ParseStep (ParseMatcher zLang 5 [97, 98])
      (ParseBuilder zLang 5 [97, 98]) [97, 98] 0 s
      = .cont 0 (some (Node.mk "z" 0 0 []))
          (Store.set s zRoot { s zRoot with hits := (s zRoot).hits + 1 }) := by
    rw [ParseStep]
    simp only [hm]
    rw [if_neg (by decide)]
    rfl
  rw [hstep]
  refine ⟨rfl, ?_, ?_, ?_, ?_⟩
  · show (Store.set s zRoot _ zRoot).cachedData = _
    simp [Store.set, h1]
  · show (Store.set s zRoot _ zRoot).cachedMatch = _
    simp [Store.set, h2]
  · show (Store.set s zRoot _ zRoot).cachedPat = _
    simp [Store.set, h3]
  · show (Store.set s zRoot _ zChild).cachedMatch = _
    rw [Store.set, if_neg (by decide)]
    exact h4

def zData : List Char := ['a', 'b']

/-- On the zero-width grammar over `"ab"` the driver's loop exhausts the
whole 10000-iteration budget. -/
theorem zLoop_exhausted :
    (ParseLoop (ParseMatcher zLang 5 (utf8Encode zData))
      (ParseBuilder zLang 5 (utf8Encode zData)) (utf8Encode zData)
      maxiter 0 [] Store.init).2.2.1 = 0 := by
  have henc : utf8Encode zData = [97, 98] := by decide
  rw [henc]
  rw [show (maxiter : Nat) = 9999 + 1 from rfl, ParseLoop, if_pos (by decide)]
  have h1 : stepPos (ParseStep (ParseMatcher zLang 5 [97, 98])
      (ParseBuilder zLang 5 [97, 98]) [97, 98] 0 Store.init) = some 0 := by decide
  have h2 : zInv (stepState (ParseStep (ParseMatcher zLang 5 [97, 98])
      (ParseBuilder zLang 5 [97, 98]) [97, 98] 0 Store.init)) := by
    rw [zInv]
    refine ⟨by decide, by decide, by decide, by decide⟩
  cases hres : ParseStep (ParseMatcher zLang 5 [97, 98])
      (ParseBuilder zLang 5 [97, 98]) [97, 98] 0 Store.init with
  | brk i' st' =>
    rw [hres] at h1
    exact absurd h1 (by simp [stepPos])
  | cont i' n st' =>
    rw [hres] at h1 h2
    have hi' : i' = 0 := by
      simp [stepPos] at h1
      omega
    subst hi'
    exact ParseLoop_stuck (ParseMatcher zLang 5 [97, 98])
      (ParseBuilder zLang 5 [97, 98]) [97, 98] zInv (by decide) zStep
      9999 _ st' h2

/-- C1 counterexample.  On the zero-width grammar over `"ab"` the main
loop exhausts its 10000-iteration budget; the resulting
`panic("reached maximum number of iterations")` is recovered by the
deferred handler, and `Parse` returns the zero values: the partial tree
is discarded **and the error component is nil** — no IterationLimitExceeded
error reaches the caller, contrary to the claim. -/
theorem claim_C1_counterexample :
    (ParseLoop (ParseMatcher zLang 5 (utf8Encode zData))
      (ParseBuilder zLang 5 (utf8Encode zData)) (utf8Encode zData)
      maxiter 0 [] Store.init).2.2.1 = 0 ∧
    (Parse zLang 5 zData Store.init).1 = (none, none) := by
  refine ⟨zLoop_exhausted, ?_⟩
  rw [Parse]
  simp [zLoop_exhausted]

/-- C1 as amended: `Parse` never surfaces an error value at all; when the
main loop exhausts its iteration budget, the recovered panic makes the
call return the zero values, so the partial tree is discarded and the
caller receives a nil tree together with a nil error (the
IterationLimitExceeded condition is only logged). -/
theorem claim_C1_limit_result (L : Language) (fuel : Nat) (data : List Char)
    (st : Store) :
    (Parse L fuel data st).1.2 = none ∧
    ((ParseLoop (ParseMatcher L fuel (utf8Encode data))
        (ParseBuilder L fuel (utf8Encode data)) (utf8Encode data)
        maxiter 0 [] st).2.2.1 = 0 →
      (Parse L fuel data st).1.1 = none) := by
  by_cases h : (ParseLoop (ParseMatcher L fuel (utf8Encode data))
      (ParseBuilder L fuel (utf8Encode data)) (utf8Encode data)
      maxiter 0 [] st).2.2.1 = 0
  · constructor
    · rw [Parse]
      simp [h]
    · intro _
      rw [Parse]
      simp [h]
  · constructor
    · rw [Parse]
      simp [h]
    · intro hh
      exact absurd hh h

/-- Witness for the amended C1 at the zero-width run: the tree and the
error are both nil after the budget is exhausted. -/
theorem claim_C1_witness :
    (Parse zLang 5 zData Store.init).1.1 = none ∧
    (Parse zLang 5 zData Store.init).1.2 = none :=
  ⟨(claim_C1_limit_result zLang 5 zData Store.init).2 zLoop_exhausted,
   (claim_C1_limit_result zLang 5 zData Store.init).1⟩

/-!
### The per-pattern cache (`Pattern.Cache`)
-/

/-- A sequence of `Cache` queries by one pattern, threading the store;
returns the match components in order. -/
def cacheQueries (L : Language) (fuel : Nat) (pid : PatId) (data : List Nat) :
    List Nat → Store → List (Option MatchObject) × Store
  | [], st => ([], st)
  | p :: rest, st =>
    let r := Cache L fuel pid data p st
    let rr := cacheQueries L fuel pid data rest r.2.2
    (r.2.1 :: rr.1, rr.2)

/-- Grammar whose single pattern matches a literal `'a'`. -/
def c10lang : Language :=
  ⟨"t", .mk "" "" none [] none [] none [] [.mk "a" "" (some (litFind [97])) [] none [] none [] []], []⟩

def c10pid : PatId := ⟨.root, [0]⟩

/-- C10 counterexample.  Query 1 (`"ab"`, position 2) records a null for
the haystack `"ab"`.  Query 2 consults the same pattern against the
haystack `"x"`, overwriting the single-entry cache.  Query 3 — a
subsequent query against the original haystack `"ab"`, at the earlier
position 0 — re-runs the regex and returns the match `[0,1]`, not null,
contrary to the claim's "every subsequent Cache query by that pattern
against the same haystack returns null". -/
theorem claim_C10_counterexample :
    (Cache c10lang 5 c10pid [97, 98] 2 Store.init).2.1 = none ∧
    ((Cache c10lang 5 c10pid [97, 98] 2 Store.init).2.2 c10pid).cachedData
      = [97, 98] ∧
    ((Cache c10lang 5 c10pid [97, 98] 2 Store.init).2.2 c10pid).cachedMatch
      = none ∧
    (Cache c10lang 5 c10pid [97, 98] 0
        (Cache c10lang 5 c10pid [120] 0
          (Cache c10lang 5 c10pid [97, 98] 2 Store.init).2.2).2.2).2.1
      = some [0, 1] := by
  exact ⟨by decide, by decide, by decide, by decide⟩

/-- C10 as amended: once a pattern's cache records a null match for a
haystack, every subsequent `Cache` query by that pattern against that
same haystack — **provided the pattern is not meanwhile consulted with a
different haystack** — returns null at every query position, including
positions strictly earlier than the recording query's, without running
any regex: the whole store (in particular the pattern's miss counter,
which counts the regex-running slow path) is left untouched. -/
theorem claim_C10_sticky_null (L : Language) (fuel : Nat) (pid : PatId)
    (data : List Nat) (st : Store)
    (h1 : (st pid).cachedData = data) (h2 : (st pid).cachedMatch = none) :
    (∀ pos, Cache L fuel pid data pos st = (none, none, st)) ∧
    (∀ ps : List Nat,
      cacheQueries L fuel pid data ps st = (ps.map (fun _ => none), st)) ∧
    (∀ ps : List Nat,
      ((cacheQueries L fuel pid data ps st).2 pid).misses = (st pid).misses) := by
  have hstep : ∀ pos, Cache L fuel pid data pos st = (none, none, st) := by
    intro pos
    cases fuel with
    | zero => rfl
    | succ fuel =>
      rw [Cache]
      cases hl : L.lookupPat pid with
      | none => rfl
      | some p =>
        simp only [hl]
        rw [if_pos h1]
        simp only [h2]
  have hmulti : ∀ ps : List Nat,
      cacheQueries L fuel pid data ps st = (ps.map (fun _ => none), st) := by
    intro ps
    induction ps with
    | nil => rfl
    | cons p rest ih =>
      rw [cacheQueries]
      simp only [hstep p, ih]
      rfl
  refine ⟨hstep, hmulti, ?_⟩
  intro ps
  rw [hmulti ps]

/-- Witness for the amended C10: after the query that records a null for
`"ab"`, two further queries against `"ab"` — at positions 0 and 1, both
earlier than the recording position 2 — return null and leave the store
untouched. -/
theorem claim_C10_witness :
    cacheQueries c10lang 5 c10pid [97, 98] [0, 1]
        (Cache c10lang 5 c10pid [97, 98] 2 Store.init).2.2
      = ([none, none],
         (Cache c10lang 5 c10pid [97, 98] 2 Store.init).2.2) :=
  (claim_C10_sticky_null c10lang 5 c10pid [97, 98]
    (Cache c10lang 5 c10pid [97, 98] 2 Store.init).2.2
    (by decide) (by decide)).2.1 [0, 1]

/-!
### Cache staleness across two tokenizations of the same input
-/

/-- Grammar with one MatchPattern for the literal `'a'`, named `x`. -/
def c8lang : Language :=
  ⟨"source.test", .mk "" "" none [] none [] none []
    [.mk "x" "" (some (litFind [97])) [] none [] none [] []], []⟩

def c8data : List Char := ['a', ' ', 'a']

/-- C8: tokenizing `"a a"` twice on the same grammar instance.  The first
pass produces two `x` nodes, `(0,1)` and `(2,3)`.  The second pass hits
the stale cache — the root's `cachedMatch` still holds the **last** match
`[2,3]` of the first pass, whose start `2 ≥ 0` passes the reuse test at
position 0 — and so produces a tree with only the `(2,3)` leaf: the two
trees differ, violating the spec's cache-consistency property 6 (the
claim states the intended behavior; the per-run cache is simply never
invalidated between runs on the same haystack, which is a bug in the
code). -/
theorem claim_C8_cache_staleness :
    ((Parse c8lang 20 c8data Store.init).1.1.map Node.flat)
      = some [("source.test", 0, 3, 2), ("x", 0, 1, 0), ("x", 2, 3, 0)] ∧
    ((Parse c8lang 20 c8data
        (Parse c8lang 20 c8data Store.init).2).1.1.map Node.flat)
      = some [("source.test", 0, 3, 1), ("x", 2, 3, 0)] ∧
    (Parse c8lang 20 c8data Store.init).1.1
      ≠ (Parse c8lang 20 c8data (Parse c8lang 20 c8data Store.init).2).1.1 := by
  refine ⟨by decide, by decide, ?_⟩
  intro h
  have e1 : ((Parse c8lang 20 c8data Store.init).1.1.map Node.flat)
      = some [("source.test", 0, 3, 2), ("x", 0, 1, 0), ("x", 2, 3, 0)] := by
    decide
  have e2 : ((Parse c8lang 20 c8data
      (Parse c8lang 20 c8data Store.init).2).1.1.map Node.flat)
      = some [("source.test", 0, 3, 1), ("x", 2, 3, 0)] := by
    decide
  rw [h, e2] at e1
  exact absurd e1 (by decide)

/-!
### Byte-to-rune rewrite (`Parser.Parse` epilogue and `Parser.patch`)
-/

theorem utf8Len_pos (c : Char) : 1 ≤ utf8Len c := by
  rw [utf8Len]
  split_ifs <;> omega

theorem utf8Bytes_length (c : Char) : (utf8Bytes c).length = utf8Len c := by
  rw [utf8Bytes, utf8Len]
  split_ifs <;> simp

theorem utf8Encode_cons (c : Char) (t : List Char) :
    utf8Encode (c :: t) = utf8Bytes c ++ utf8Encode t := by
  simp [utf8Encode]

theorem BuildLutCore_length :
    ∀ (l : List Char) (j : Nat),
    (BuildLutCore j l).length = (utf8Encode l).length := by
  intro l
  induction l with
  | nil => intro j; rfl
  | cons c t ih =>
    intro j
    rw [BuildLutCore, utf8Encode_cons]
    simp only [List.length_cons, List.length_append, List.length_replicate,
      ih (j + 1), utf8Bytes_length]
    have := utf8Len_pos c
    omega

theorem BuildLutCore_runeStart :
    ∀ (l : List Char) (j k : Nat), k < l.length →
    (BuildLutCore j l).getD (utf8Encode (l.take k)).length 0 = j + k := by
  intro l
  induction l with
  | nil => intro j k h; exact absurd h (by simp)
  | cons c t ih =>
    intro j k h
    cases k with
    | zero => rfl
    | succ k =>
      rw [List.take_succ_cons, utf8Encode_cons, BuildLutCore]
      have hlen : (utf8Bytes c ++ utf8Encode (t.take k)).length
          = utf8Len c + (utf8Encode (t.take k)).length := by
        simp [utf8Bytes_length]
      rw [hlen]
      have hu := utf8Len_pos c
      have hidx : utf8Len c + (utf8Encode (t.take k)).length
          = ((utf8Len c - 1) + (utf8Encode (t.take k)).length) + 1 := by
        omega
      rw [hidx, List.getD_cons_succ]
      rw [List.getD_append_right _ _ _ _ (by simp)]
      simp only [List.length_replicate]
      have hsub : (utf8Len c - 1) + (utf8Encode (t.take k)).length
          - (utf8Len c - 1) = (utf8Encode (t.take k)).length := by
        omega
      rw [hsub, ih (j + 1) k (by simpa using h)]
      omega

/-- C9: the byte-offset → rune-offset rewrite.  The lookup table built by
the linear sweep has one entry per byte of the encoded text plus the
terminal entry; the entry at the byte offset of the `k`-th rune is `k`,
and the terminal entry maps the byte length of the text to its rune
length; `patch` rewrites the begin and end of every node — the root and,
by recursive descent, all its descendants — through the table; and for a
non-empty input (with the budget not exhausted) the tree `Parse` returns
is exactly the root node patched through the table built from the
input. -/
theorem claim_C9_byte_to_rune (data : List Char) :
    ((BuildLut data).length = (utf8Encode data).length + 1) ∧
    (∀ k, k < data.length →
      (BuildLut data).getD (utf8Encode (data.take k)).length 0 = k) ∧
    ((BuildLut data).getD (utf8Encode data).length 0 = data.length) ∧
    (∀ (lut : List Nat) (n : Node),
      (patch lut n).flat = n.flat.map (fun e =>
        (e.1, ((lut.getD e.2.1.toNat 0 : Nat) : Int),
          ((lut.getD e.2.2.1.toNat 0 : Nat) : Int), e.2.2.2))) ∧
    (∀ (L : Language) (fuel : Nat) (st : Store),
      (utf8Encode data).length ≠ 0 →
      (ParseLoop (ParseMatcher L fuel (utf8Encode data))
        (ParseBuilder L fuel (utf8Encode data)) (utf8Encode data)
        maxiter 0 [] st).2.2.1 ≠ 0 →
      (Parse L fuel data st).1.1
        = some (patch (BuildLut data)
            ((Node.mk L.scopeName 0 0
              (ParseLoop (ParseMatcher L fuel (utf8Encode data))
                (ParseBuilder L fuel (utf8Encode data)) (utf8Encode data)
                maxiter 0 [] st).1).updateRange))) := by
  refine ⟨?_, ?_, ?_, ?_, ?_⟩
  · rw [BuildLut]
    simp [BuildLutCore_length]
  · intro k hk
    rw [BuildLut]
    have hcore : (utf8Encode (data.take k)).length < (BuildLutCore 0 data).length := by
      rw [BuildLutCore_length]
      have h1 : data.take k ++ data.drop k = data := List.take_append_drop k data
      have h2 : (utf8Encode data).length
          = (utf8Encode (data.take k)).length + (utf8Encode (data.drop k)).length := by
        conv_lhs => rw [← h1]
        simp [utf8Encode]
      have h3 : (utf8Encode (data.drop k)).length ≠ 0 := by
        have hne : data.drop k ≠ [] := by
          intro hcontra
          have := List.drop_eq_nil_iff.1 hcontra
          omega
        cases hd2 : data.drop k with
        | nil => exact absurd hd2 hne
        | cons c t =>
          rw [utf8Encode_cons]
          simp only [List.length_append, utf8Bytes_length]
          have := utf8Len_pos c
          omega
      omega
    rw [List.getD_append _ _ _ _ hcore]
    have := BuildLutCore_runeStart data 0 k hk
    omega
  · rw [BuildLut]
    rw [List.getD_append_right _ _ _ _ (by rw [BuildLutCore_length])]
    rw [BuildLutCore_length]
    simp
  · intro lut n
    induction n using Node.rec
      (motive_2 := fun l => flatList (patchList lut l)
        = (flatList l).map (fun e =>
            (e.1, ((lut.getD e.2.1.toNat 0 : Nat) : Int),
              ((lut.getD e.2.2.1.toNat 0 : Nat) : Int), e.2.2.2))) with
    | mk nm a b ch ih =>
      rw [patch, Node.flat, Node.flat, List.map_cons, ih]
      have hlen : (patchList lut ch).length = ch.length := by
        clear ih
        induction ch with
        | nil => rfl
        | cons x t iht => rw [patchList]; simpa using iht
      rw [hlen]
    | nil => rfl
    | cons x t ihx iht =>
      rw [patchList, flatList, flatList, List.map_append, ihx, iht]
  · intro L fuel st hne hrem
    rw [Parse]
    simp [hne, hrem]

/-- Witness for C9 at `['é', 'a']` (a two-byte rune followed by a
one-byte rune): the byte offset of rune 1 is 2 and the table maps it to
rune index 1; the terminal entry maps byte length 3 to rune length 2. -/
theorem claim_C9_witness :
    (BuildLut ['é', 'a']).getD (utf8Encode (['é', 'a'].take 1)).length 0 = 1 ∧
    (BuildLut ['é', 'a']).getD (utf8Encode ['é', 'a']).length 0 = 2 := by
  constructor
  · exact (claim_C9_byte_to_rune ['é', 'a']).2.1 1 (by decide)
  · exact (claim_C9_byte_to_rune ['é', 'a']).2.2.1

end Sublime
